import Mathlib

/-!
Shallow embedding of `console_logging.py` (Blender "Logging Console" plugin).

Python strings are modelled as `List Char` (`Str`), Python dicts as
insertion-ordered association lists, the process-wide logger registry
(`logging.Logger.manager.loggerDict`) as an association list from dotted
names to entries (real loggers or placeholders), and the console state
(scrollback lines, the `ScrollBackIO` buffer, the watched-handler map
`self._handlers`, and a fresh-id counter for handler objects) as `State`.
-/

set_option autoImplicit false

namespace ConsoleLogging

abbrev Str := List Char

/-- Python `s.split(c)` for a one-character separator: `splitOnC c "" = [""]`,
separators delimit (possibly empty) fields. -/
def splitOnC (c : Char) : Str → List Str
  | [] => [[]]
  | a :: rest =>
    let r := splitOnC c rest
    if a = c then [] :: r
    else (a :: r.headD []) :: r.tail

/-- Python `sep.join(l)`. -/
def joinSep (sep : Str) : List Str → Str
  | [] => []
  | [s] => s
  | s :: rest => s ++ sep ++ joinSep sep rest

/-- Python `l.replace("\t", "    ")` (the pattern is a single character, so the
replacement acts characterwise). -/
def replaceTab (s : Str) : Str :=
  s.flatMap (fun c => if c = '\t' then [' ', ' ', ' ', ' '] else [c])

/-- Python dict lookup `m.get(k)` / `m[k]` on an insertion-ordered assoc list. -/
def lookupA {α : Type} (m : List (Str × α)) (k : Str) : Option α :=
  match m with
  | [] => none
  | (k2, v) :: rest => if k2 = k then some v else lookupA rest k

/-- Python dict assignment `m[k] = v`: update in place if the key exists,
otherwise append (insertion order preserved). -/
def insertA {α : Type} (m : List (Str × α)) (k : Str) (v : α) : List (Str × α) :=
  match m with
  | [] => [(k, v)]
  | (k2, v2) :: rest => if k2 = k then (k, v) :: rest else (k2, v2) :: insertA rest k v

/-- Python `m.pop(k)`: the value and the dict without the key, or `none`
(KeyError) when absent. -/
def popA {α : Type} (m : List (Str × α)) (k : Str) : Option (α × List (Str × α)) :=
  match m with
  | [] => none
  | (k2, v) :: rest =>
    if k2 = k then some (v, rest)
    else
      match popA rest k with
      | none => none
      | some (v2, rest2) => some (v2, (k2, v) :: rest2)

/-- Python `list(m.keys())`. -/
def keysA {α : Type} (m : List (Str × α)) : List Str := m.map (·.1)

/-- A `logging.Logger`: its level and the handler objects attached to it
(handler objects are identified by the `Nat` id they were created with). -/
structure Logger where
  level : Nat
  handlers : List Nat
deriving DecidableEq

/-- An entry of `logging.Logger.manager.loggerDict`: a real `Logger` or a
`logging.PlaceHolder` (which has no `addHandler` attribute). -/
inductive Entry where
  | real (lg : Logger)
  | placeholder
deriving DecidableEq

/-- The state the plugin manipulates: the logger registry
(`logging.Logger.manager.loggerDict`), the watched-handler map
(`LoggingCmd._handlers`), a counter supplying ids of freshly constructed
`StreamHandler` objects, the console scrollback (one entry per appended
line, tab characters already replaced by `add_scrollback`), and the
`ScrollBackIO._buffer` of `self.stdout`. -/
structure State where
  registry : List (Str × Entry)
  handlers : List (Str × Nat)
  nextId : Nat
  scrollback : List Str
  buffer : Str
deriving DecidableEq

def nlS : Str := ['\n']

/-- `LoggingCmd.indent` (four spaces). -/
def indentS : Str := [' ', ' ', ' ', ' ']

/-- `add_scrollback(text, type)`: split on newlines and append each line to
the console scrollback, replacing tabs by four spaces. -/
def add_scrollback (sb : List Str) (text : Str) : List Str :=
  sb ++ (splitOnC '\n' text).map replaceTab

/-- `ScrollBackIO.write(s)`: extend the buffer; if it now holds a newline,
`rsplit` at the last newline, send everything before it to the scrollback
and keep the remainder buffered. -/
def sb_write (st : State) (s : Str) : State :=
  let buf := st.buffer ++ s
  if buf.contains '\n' then
    let parts := splitOnC '\n' buf
    { st with
      scrollback := add_scrollback st.scrollback (joinSep nlS parts.dropLast),
      buffer := parts.getLastD [] }
  else
    { st with buffer := buf }

/-- `ScrollBackIO.writeline(s)`: `write(s)` then `write('\n')`. -/
def writeline (st : State) (s : Str) : State :=
  sb_write (sb_write st s) nlS

/-- One `writeline` per element, in order. -/
def writeAll (st : State) (lines : List Str) : State :=
  lines.foldl writeline st

/-- The `LEVELS` table. -/
def LEVELS : List (Str × Nat) :=
  [("debug".data, 10), ("info".data, 20), ("warning".data, 30),
   ("error".data, 40), ("critical".data, 50)]

/-- Python lexicographic `<` on strings. -/
def pyLt : Str → Str → Bool
  | [], [] => false
  | [], _ :: _ => true
  | _ :: _, [] => false
  | a :: as_, b :: bs => if a < b then true else if b < a then false else pyLt as_ bs

/-- Python `min(x :: l)` (first minimal element wins ties). -/
def pyMin : Str → List Str → Str
  | acc, [] => acc
  | acc, x :: xs => pyMin (if pyLt x acc then x else acc) xs

/-- Python `max(x :: l)` (first maximal element wins ties). -/
def pyMax : Str → List Str → Str
  | acc, [] => acc
  | acc, x :: xs => pyMax (if pyLt acc x then x else acc) xs

/-- Python stable ascending insertion into a sorted list. -/
def insertSorted (x : Str) : List Str → List Str
  | [] => [x]
  | y :: ys => if pyLt x y then x :: y :: ys else y :: insertSorted x ys

/-- Python `sorted(l)` (modelled as insertion sort; same ascending order). -/
def pySort : List Str → List Str
  | [] => []
  | x :: xs => insertSorted x (pySort xs)

/-- The loop body of `longest_common_prefix`:
`for i, c in enumerate(s1): if c != s2[i]: return s1[:i]` then `return s1`.
`none` models the `IndexError` raised when `s2` runs out while characters
still match. -/
def lcpScan : Str → Str → Option Str
  | [], _ => some []
  | _ :: _, [] => none
  | a :: t1, b :: t2 =>
    if a = b then (lcpScan t1 t2).map (fun r => a :: r) else some []

/-- `longest_common_prefix(m)`: `''` for the empty list, else scan
`min(m)` against `max(m)`. -/
def longest_common_prefix (m : List Str) : Option Str :=
  match m with
  | [] => some []
  | x :: xs => lcpScan (pyMin x xs) (pyMax x xs)

/-- `logger in s` for a dot: Python `'.' in logger`. -/
def hasDot (s : Str) : Bool := s.contains '.'

/-- `logger.split('.', 1)[0]`. -/
def topOf (s : Str) : Str := s.takeWhile (fun c => c ≠ '.')

/-- `logger.split('.', 1)[1]` (only used when a dot is present). -/
def subsOf (s : Str) : Str := (s.dropWhile (fun c => c ≠ '.')).drop 1

/-- `loggers.setdefault(top, []).append(subs)`. -/
def setdefaultApp (gs : List (Str × List Str)) (k : Str) (v : Str) :
    List (Str × List Str) :=
  match gs with
  | [] => [(k, [v])]
  | (k2, l) :: rest =>
    if k2 = k then (k2, l ++ [v]) :: rest else (k2, l) :: setdefaultApp rest k v

/-- `loggers.setdefault(logger, [])` (value discarded). -/
def setdefaultNil (gs : List (Str × List Str)) (k : Str) : List (Str × List Str) :=
  match gs with
  | [] => [(k, [])]
  | (k2, l) :: rest =>
    if k2 = k then (k2, l) :: rest else (k2, l) :: setdefaultNil rest k

/-- One iteration of the grouping loop inside `unflatten`. -/
def groupStep (gs : List (Str × List Str)) (logger : Str) : List (Str × List Str) :=
  if hasDot logger then setdefaultApp gs (topOf logger) (subsOf logger)
  else setdefaultNil gs logger

/-- The nested dict `get_loggers` builds: dotted-name components as keys. -/
inductive Trie where
  | node (children : List (Str × Trie))

def Trie.children : Trie → List (Str × Trie)
  | .node cs => cs

/-- `unflatten`, with explicit fuel for termination. Each recursive call is
on a group list whose strings lost at least their first component and the
dot, so the total length `sumLen` strictly decreases level by level;
`sumLen l` fuel therefore always suffices (the fuel-0 branch is only
reached on empty lists, where `node []` is also the exact answer). -/
def unflattenF : Nat → List Str → Trie
  | 0, _ => Trie.node []
  | fuel + 1, l =>
    let gs := l.foldl groupStep []
    Trie.node (gs.map (fun g => (g.1, unflattenF fuel g.2)))

def sumLen (l : List Str) : Nat := l.foldl (fun n s => n + s.length + 1) 0

/-- `LoggingCmd.get_loggers`' recursive `unflatten`. -/
def unflatten (l : List Str) : Trie := unflattenF (sumLen l) l

/-- The loop of `get_logger_children`: `for part in parts: loggers = loggers[part]`;
`none` is the KeyError. -/
def walkT (t : Trie) : List Str → Option Trie
  | [] => some t
  | p :: ps =>
    match lookupA t.children p with
    | none => none
    | some t2 => walkT t2 ps

def midPfx : Str := ['├', '─', '─', ' ']
def lastPfx : Str := ['└', '─', '─', ' ']
def pipeInd : Str := ['│', ' ', ' ', ' ']

/-- The lines `tree_level(loggers, prefix)` writes, in writing order
(`use_pipes` is `True` in the source). -/
def treeLines : List (Str × Trie) → Str → List Str
  | [], _ => []
  | (name, Trie.node cs) :: rest, pfx =>
    let is_last := rest.isEmpty
    ((pfx ++ (if is_last then lastPfx else midPfx)) ++ name) ::
      (treeLines cs (pfx ++ (if is_last then indentS else pipeInd)) ++ treeLines rest pfx)
termination_by l _ => sizeOf l
decreasing_by
  all_goals simp
  all_goals omega

def msgAlreadyWatched : Str := "*** Logger already being watched".data
def msgNoLoggerNamed : Str := "*** No logger found with name: ".data
def msgNotTopLevel : Str := "*** Not a top level logger".data
def msgNotWatched : Str := "*** Logger not being watched".data
def msgNoneWatched : Str := "*** No loggers being watched".data
def msgOnlyWatched : Str := "*** Can only change the level on watched loggers".data
def msgUnknownLevel : Str := "*** Unknown level: ".data
def msgBadFormat : Str := "*** Must be in the format: set_level <logger> <level>".data
def msgNoSuchLogger : Str := "No such logger: ".data
def msgNoChildren : Str := "*** No child loggers found".data

/-- `Logger.addHandler`: append unless already attached. -/
def addHandlerL (hs : List Nat) (h : Nat) : List Nat :=
  if hs.contains h then hs else hs ++ [h]

/-- `do_watch(arg)`. The fresh `StreamHandler(self.stdout)` with
`Formatter(logging.BASIC_FORMAT)` is the id `st.nextId`; a `PlaceHolder`
registry entry has no `addHandler`, raising `AttributeError`, caught and
reported as `'*** Not a top level logger'` before `self._handlers` is
assigned. -/
def do_watch (st : State) (arg : Str) : State :=
  if (lookupA st.handlers arg).isSome then
    writeline st msgAlreadyWatched
  else
    match lookupA st.registry arg with
    | none => writeline st (msgNoLoggerNamed ++ arg)
    | some Entry.placeholder => writeline st msgNotTopLevel
    | some (Entry.real lg) =>
      { st with
        registry := insertA st.registry arg
          (Entry.real { lg with handlers := addHandlerL lg.handlers st.nextId }),
        handlers := insertA st.handlers arg st.nextId,
        nextId := st.nextId + 1 }

/-- `do_unwatch(arg)`: `self._handlers.pop(arg)` (KeyError when not watched),
then `loggerDict[arg]` (KeyError leaves the pop done), then
`logger.removeHandler(handler)` (removes the first occurrence if present).
On a `PlaceHolder` entry CPython would raise an uncaught `AttributeError`
at `removeHandler`; the state at that point (handler popped, registry
untouched, nothing written) is returned. That branch is unreachable from
states produced by `do_watch`, which only watches real loggers. -/
def do_unwatch (st : State) (arg : Str) : State :=
  match popA st.handlers arg with
  | none => writeline st msgNotWatched
  | some (h, rest) =>
    match lookupA st.registry arg with
    | none => writeline { st with handlers := rest } msgNotWatched
    | some Entry.placeholder => { st with handlers := rest }
    | some (Entry.real lg) =>
      { st with
        handlers := rest,
        registry := insertA st.registry arg
          (Entry.real { lg with handlers := lg.handlers.erase h }) }

/-- `do_watching(arg)`. -/
def do_watching (st : State) : State :=
  if st.handlers.length ≠ 0 then
    writeline st (indentS ++ joinSep ('\n' :: indentS) (keysA st.handlers))
  else
    writeline st msgNoneWatched

/-- `logging.getLogger(name)`: the registry's logger and the registry after
the call. On a name watched by this plugin (the only case `do_set_level`
reaches) the entry is a real logger and the call is a pure lookup. For
completeness the other cases follow `getLogger`: a placeholder is replaced
by a fresh logger (level `NOTSET = 0`, no handlers), a missing name is
appended (ancestor placeholder creation is omitted; no claim depends on
those branches). -/
def getLoggerEff (reg : List (Str × Entry)) (name : Str) :
    Logger × List (Str × Entry) :=
  match lookupA reg name with
  | some (Entry.real lg) => (lg, reg)
  | some Entry.placeholder =>
    ({ level := 0, handlers := [] }, insertA reg name (Entry.real { level := 0, handlers := [] }))
  | none =>
    ({ level := 0, handlers := [] }, reg ++ [(name, Entry.real { level := 0, handlers := [] })])

/-- `do_set_level(arg)`: `arg.split(' ')` must give exactly two words and
the logger must be watched. In `logging.getLogger(logger).setLevel(LEVELS[level])`
CPython evaluates `logging.getLogger(logger)` before `LEVELS[level]`, so
the `getLogger` effect happens even when the level word is unknown (a
no-op on a watched, hence real, logger). -/
def do_set_level (st : State) (arg : Str) : State :=
  match splitOnC ' ' arg with
  | [logger, level] =>
    match lookupA st.handlers logger with
    | none => writeline st msgOnlyWatched
    | some _ =>
      let got := getLoggerEff st.registry logger
      match lookupA LEVELS level with
      | none => writeline { st with registry := got.2 } (msgUnknownLevel ++ level)
      | some n =>
        { st with registry := insertA got.2 logger (Entry.real { got.1 with level := n }) }
  | _ => writeline st msgBadFormat

/-- `do_list_loggers(arg)`. `prefix = (arg + '.') if arg else ''` and one
line `indent + prefix + logger` per key of the resulting dict. -/
def do_list_loggers (st : State) (arg : Str) : State :=
  if arg = [] then
    let cs := (unflatten (keysA st.registry)).children
    if cs.length = 0 then writeline st msgNoChildren
    else writeAll st (cs.map (fun p => indentS ++ p.1))
  else
    match walkT (unflatten (keysA st.registry)) (splitOnC '.' arg) with
    | none => writeline st (msgNoSuchLogger ++ arg)
    | some t =>
      let cs := t.children
      if cs.length = 0 then writeline st msgNoChildren
      else writeAll st (cs.map (fun p => indentS ++ (arg ++ '.' :: p.1)))

/-- `do_list_all(arg)`. -/
def do_list_all (st : State) : State :=
  writeline st (indentS ++ joinSep ('\n' :: indentS) (pySort (keysA st.registry)))

/-- `do_tree(arg)`. In the `except KeyError` branch the source evaluates
`prefix.join('.')`, but `prefix` is not a name in `do_tree`'s scope
(it is only a parameter of the inner `tree_level`), so CPython raises an
uncaught `NameError`; that branch is `none`. -/
def do_tree (st : State) (arg : Str) : Option State :=
  if arg = [] then
    some (writeAll (writeline st (indentS ++ "root".data))
      (treeLines (unflatten (keysA st.registry)).children indentS))
  else
    match walkT (unflatten (keysA st.registry)) (splitOnC '.' arg) with
    | none => none
    | some t =>
      some (writeAll (writeline st (indentS ++ arg))
        (treeLines t.children indentS))

/-- `do_clear(arg)` writes `'\n' * int(region.height / font_size)`; the
host-dependent count is the parameter `n`. -/
def do_clear (st : State) (n : Nat) : State :=
  sb_write st (List.replicate n '\n')

/-- `logging.BASIC_FORMAT` (`"%(levelname)s:%(name)s:%(message)s"`) applied
to a record. -/
def format_basic (levelname name msg : Str) : Str :=
  levelname ++ ':' :: name ++ ':' :: msg

/-- `StreamHandler.emit` for the handlers `do_watch` creates: write the
formatted record plus the `'\n'` terminator to `self.stdout`, the
console's `ScrollBackIO`. -/
def handler_emit (st : State) (levelname name msg : Str) : State :=
  sb_write st ( format_basic levelname name msg ++ nlS)

/-- The completer body produced by `_logger_completer_factory(False)`,
iterating the registry keys (`get_loggers_flat`). -/
def complete_loggers_from (loggers : List Str) (text : Str) : List Str :=
  loggers.foldl
    (fun options logger =>
      if text.isPrefixOf logger then
        let l := text ++ topOf (logger.drop text.length)
        if options.contains l then options else options ++ [l]
      else options)
    []

/-- The `ScrollBackIO` class on its own, its sink abstracted: `flushed`
records, in order, each `scrollback` string passed to `add_scrollback`
(`State.sb_write` is the same `write` composed with the console's
`add_scrollback`). -/
structure ScrollBackIO where
  flushed : List Str
  buffer : Str
deriving DecidableEq

/-- `ScrollBackIO.write(s)`. -/
def ScrollBackIO.write (io : ScrollBackIO) (s : Str) : ScrollBackIO :=
  let buf := io.buffer ++ s
  if buf.contains '\n' then
    let parts := splitOnC '\n' buf
    { flushed := io.flushed ++ [joinSep nlS parts.dropLast],
      buffer := parts.getLastD [] }
  else
    { io with buffer := buf }

/-- The text the scrollback received, line structure preserved: flushed
chunks are separated by the newline each flush consumed, and a final
consumed newline separates them from the residual buffer. -/
def sentPlusBuffer (flushed : List Str) (buffer : Str) : Str :=
  match flushed with
  | [] => buffer
  | _ :: _ => joinSep nlS flushed ++ '\n' :: buffer

/-- Modelled from the spec sentence for C6 ("exactly the strings obtained by
taking each registered logger name that starts with text and extending
text with the remainder of that name up to (excluding) the next '.'"):
the raw candidate list, before duplicate removal. -/
def completionCandidates (loggers : List Str) (text : Str) : List Str :=
  (loggers.filter (fun lg => text.isPrefixOf lg)).map
    (fun lg => text ++ topOf (lg.drop text.length))

/-- First-occurrence duplicate removal, order preserved. -/
def dedupKeepFirst : List Str → List Str
  | [] => []
  | x :: xs => x :: dedupKeepFirst (xs.filter (fun y => y ≠ x))
termination_by l => l.length
decreasing_by
  simp
  exact Nat.lt_succ_of_le (List.length_filter_le _ _)

/-- The handler ids the plugin could have created so far, attached to a
registry entry: ids at least `N`, the fresh-id counter of the initial
state (a `PlaceHolder` has no handler list). -/
def entryPlug (N : Nat) (e : Entry) : List Nat :=
  match e with
  | Entry.real lg => lg.handlers.filter (fun h => N ≤ h)
  | Entry.placeholder => []

/-- Whether a name is registered as a real logger. -/
def isRealAt (reg : List (Str × Entry)) (k : Str) : Bool :=
  match lookupA reg k with
  | some (Entry.real _) => true
  | _ => false

/-- The plugin handlers attached at a name. -/
def plugAt (N : Nat) (reg : List (Str × Entry)) (k : Str) : List Nat :=
  match lookupA reg k with
  | some e => entryPlug N e
  | none => []

/-- Invariant tying the watched-handler map to the registry, for runs that
started with no plugin handler attached and fresh-id counter `N`:
keys and handler ids are unduplicated, every watched pair points at a real
logger carrying exactly that one plugin handler, and unwatched entries
carry none. -/
def Inv (N : Nat) (st : State) : Prop :=
  N ≤ st.nextId ∧
  (keysA st.registry).Nodup ∧
  (keysA st.handlers).Nodup ∧
  (st.handlers.map (·.2)).Nodup ∧
  (∀ p ∈ st.handlers,
    N ≤ p.2 ∧ p.2 < st.nextId ∧ isRealAt st.registry p.1 = true ∧
      plugAt N st.registry p.1 = [p.2]) ∧
  (∀ q ∈ st.registry, lookupA st.handlers q.1 = none → entryPlug N q.2 = [])

/-- One console operation (`do_clear`'s newline count and the raw
`stdout.write` are parameters; `tree` may abort with `NameError`). -/
inductive Op where
  | clear (n : Nat)
  | list_loggers (arg : Str)
  | list_all
  | tree (arg : Str)
  | watch (arg : Str)
  | unwatch (arg : Str)
  | watching
  | set_level (arg : Str)
  | write (s : Str)

def runOp (st : State) : Op → Option State
  | .clear n => some (do_clear st n)
  | .list_loggers a => some (do_list_loggers st a)
  | .list_all => some (do_list_all st)
  | .tree a => do_tree st a
  | .watch a => some (do_watch st a)
  | .unwatch a => some (do_unwatch st a)
  | .watching => some (do_watching st)
  | .set_level a => some (do_set_level st a)
  | .write s => some (sb_write st s)

/-- A sequence of watch (`true`) and unwatch (`false`) commands. -/
def runWU (st : State) (cmds : List (Bool × Str)) : State :=
  cmds.foldl (fun s c => if c.1 then do_watch s c.2 else do_unwatch s c.2) st

/-- A sample state: one real logger `alpha` at level `WARNING`, nothing
watched. -/
def sampleState : State :=
  { registry := [("alpha".data, Entry.real { level := 30, handlers := [] })],
    handlers := [], nextId := 0, scrollback := [], buffer := [] }

/-- A sample state with `alpha` watched through handler 5. -/
def watchedState : State :=
  { registry := [("alpha".data, Entry.real { level := 30, handlers := [5] })],
    handlers := [("alpha".data, 5)], nextId := 6, scrollback := [], buffer := [] }

/-! ### Association-list lemmas -/

theorem keysA_cons {α : Type} (p : Str × α) (m : List (Str × α)) :
    keysA (p :: m) = p.1 :: keysA m := rfl

theorem lookupA_eq_none_iff {α : Type} (m : List (Str × α)) (k : Str) :
    lookupA m k = none ↔ k ∉ keysA m := by
  induction m with
  | nil => simp [lookupA, keysA]
  | cons p rest ih =>
    obtain ⟨k2, v⟩ := p
    rw [keysA_cons]
    by_cases h : k2 = k
    · subst h
      constructor
      · intro hc
        simp [lookupA] at hc
      · intro hm
        exact absurd (List.mem_cons_self _ _) hm
    · have h2 : ¬ k = k2 := fun he => h (Eq.symm he)
      simp only [lookupA, if_neg h, List.mem_cons, ih]
      constructor
      · intro hm hc
        rcases hc with hc | hc
        · exact h2 hc
        · exact hm hc
      · intro hm hc
        exact hm (Or.inr hc)

theorem lookupA_mem {α : Type} {m : List (Str × α)} {k : Str} {v : α}
    (h : lookupA m k = some v) : (k, v) ∈ m := by
  induction m with
  | nil => simp [lookupA] at h
  | cons p rest ih =>
    obtain ⟨k2, v2⟩ := p
    by_cases hk : k2 = k
    · subst hk
      simp [lookupA] at h
      subst h
      exact List.mem_cons_self _ _
    · simp [lookupA, hk] at h
      exact List.mem_cons_of_mem _ (ih h)

theorem mem_keysA_of_mem {α : Type} {m : List (Str × α)} {q : Str × α}
    (h : q ∈ m) : q.1 ∈ keysA m := by
  induction m with
  | nil => simp at h
  | cons p rest ih =>
    rw [keysA_cons]
    rcases List.mem_cons.mp h with h1 | h1
    · rw [h1]
      exact List.mem_cons_self _ _
    · exact List.mem_cons_of_mem _ (ih h1)

theorem mem_lookupA {α : Type} {m : List (Str × α)} {q : Str × α}
    (hnd : (keysA m).Nodup) (h : q ∈ m) : lookupA m q.1 = some q.2 := by
  induction m with
  | nil => simp at h
  | cons p rest ih =>
    rw [keysA_cons, List.nodup_cons] at hnd
    rcases List.mem_cons.mp h with h1 | h1
    · subst h1
      simp [lookupA]
    · have hne : p.1 ≠ q.1 := by
        intro he
        exact hnd.1 (he ▸ mem_keysA_of_mem h1)
      simp only [lookupA]
      obtain ⟨k2, v2⟩ := p
      rw [if_neg hne]
      exact ih hnd.2 h1

theorem lookupA_insertA_self {α : Type} (m : List (Str × α)) (k : Str) (v : α) :
    lookupA (insertA m k v) k = some v := by
  induction m with
  | nil => simp [insertA, lookupA]
  | cons p rest ih =>
    obtain ⟨k2, v2⟩ := p
    by_cases h : k2 = k <;> simp [insertA, lookupA, h, ih]

theorem lookupA_insertA_ne {α : Type} (m : List (Str × α)) (k k2 : Str) (v : α)
    (h : k2 ≠ k) : lookupA (insertA m k v) k2 = lookupA m k2 := by
  have h2 : ¬ k = k2 := fun he => h (Eq.symm he)
  induction m with
  | nil => simp [insertA, lookupA, h2]
  | cons p rest ih =>
    obtain ⟨k3, v3⟩ := p
    by_cases h3 : k3 = k
    · subst h3
      simp [insertA, lookupA, h2]
    · by_cases h4 : k3 = k2 <;> simp [insertA, lookupA, h3, h4, ih, h]

theorem insertA_of_lookupA_none {α : Type} {m : List (Str × α)} {k : Str}
    (v : α) (h : lookupA m k = none) : insertA m k v = m ++ [(k, v)] := by
  induction m with
  | nil => simp [insertA]
  | cons p rest ih =>
    obtain ⟨k2, v2⟩ := p
    by_cases h2 : k2 = k
    · simp [lookupA, h2] at h
    · simp [lookupA, h2] at h
      simp [insertA, h2, ih h]

theorem insertA_of_lookupA_self {α : Type} {m : List (Str × α)} {k : Str} {v : α}
    (h : lookupA m k = some v) : insertA m k v = m := by
  induction m with
  | nil => simp [lookupA] at h
  | cons p rest ih =>
    obtain ⟨k2, v2⟩ := p
    by_cases h2 : k2 = k
    · subst h2
      simp [lookupA] at h
      simp [insertA, h]
    · simp [lookupA, h2] at h
      simp [insertA, h2, ih h]

theorem insertA_insertA {α : Type} (m : List (Str × α)) (k : Str) (v1 v2 : α) :
    insertA (insertA m k v1) k v2 = insertA m k v2 := by
  induction m with
  | nil => simp [insertA]
  | cons p rest ih =>
    obtain ⟨k2, v3⟩ := p
    by_cases h : k2 = k <;> simp [insertA, h, ih]

theorem keysA_insertA_of_some {α : Type} {m : List (Str × α)} {k : Str} {w : α}
    (v : α) (h : lookupA m k = some w) : keysA (insertA m k v) = keysA m := by
  induction m with
  | nil => simp [lookupA] at h
  | cons p rest ih =>
    obtain ⟨k2, v2⟩ := p
    by_cases h2 : k2 = k
    · subst h2
      simp [insertA, keysA]
    · simp [lookupA, h2] at h
      simp [insertA, keysA, h2] at *
      exact ih h

theorem popA_split {α : Type} {m : List (Str × α)} {k : Str} {v : α}
    {rest : List (Str × α)} (h : popA m k = some (v, rest)) :
    ∃ m1 m2, m = m1 ++ (k, v) :: m2 ∧ rest = m1 ++ m2 ∧ lookupA m1 k = none := by
  induction m generalizing rest with
  | nil => simp [popA] at h
  | cons p tail ih =>
    obtain ⟨k2, v2⟩ := p
    by_cases h2 : k2 = k
    · subst h2
      simp [popA] at h
      exact ⟨[], tail, by simp [h.1, h.2], by simp [h.2], by simp [lookupA]⟩
    · simp [popA, h2] at h
      rcases hrec : popA tail k with _ | ⟨v3, rest3⟩
      · rw [hrec] at h
        simp at h
      · rw [hrec] at h
        simp at h
        obtain ⟨m1, m2, he, hr, hl⟩ := ih (hrec.trans (by rw [h.1]))
        exact ⟨(k2, v2) :: m1, m2, by simp [he], by simp [← h.2, hr],
          by simp [lookupA, h2, hl]⟩

theorem popA_eq_none_iff {α : Type} (m : List (Str × α)) (k : Str) :
    popA m k = none ↔ lookupA m k = none := by
  induction m with
  | nil => simp [popA, lookupA]
  | cons p rest ih =>
    obtain ⟨k2, v2⟩ := p
    by_cases h2 : k2 = k
    · simp [popA, lookupA, h2]
    · simp only [popA, lookupA, if_neg h2]
      rcases hrec : popA rest k with _ | pr <;> simp [hrec] at ih ⊢ <;> simp [ih]

theorem popA_append_of_none {α : Type} {m : List (Str × α)} {k : Str}
    (v : α) (h : lookupA m k = none) : popA (m ++ [(k, v)]) k = some (v, m) := by
  induction m with
  | nil => simp [popA]
  | cons p rest ih =>
    obtain ⟨k2, v2⟩ := p
    by_cases h2 : k2 = k
    · simp [lookupA, h2] at h
    · simp [lookupA, h2] at h
      simp [popA, h2, ih h]

/-! ### split/join lemmas -/

theorem splitOnC_ne_nil (c : Char) (s : Str) : splitOnC c s ≠ [] := by
  cases s with
  | nil => simp [splitOnC]
  | cons a rest => by_cases h : a = c <;> simp [splitOnC, h]

theorem splitOnC_no_sep {c : Char} {s : Str} (h : s.contains c = false) :
    splitOnC c s = [s] := by
  induction s with
  | nil => rfl
  | cons a rest ih =>
    simp [List.contains_cons] at h
    have hne : ¬ a = c := by
      intro he
      simp [he] at h
    simp [splitOnC, hne, ih (by simpa using h.2)]

theorem mem_splitOnC_no_sep {c : Char} {s : Str} {p : Str}
    (h : p ∈ splitOnC c s) : p.contains c = false := by
  induction s generalizing p with
  | nil =>
    simp [splitOnC] at h
    simp [h]
  | cons a rest ih =>
    by_cases hc : a = c
    · simp [splitOnC, hc] at h
      rcases h with h | h
      · simp [h]
      · exact ih h
    · rcases hsp : splitOnC c rest with _ | ⟨hd, tl⟩
      · exact absurd hsp (splitOnC_ne_nil c rest)
      · simp [splitOnC, hc, hsp] at h
        rcases h with h | h
        · have hhd : hd.contains c = false := ih (by rw [hsp]; exact List.mem_cons_self _ _)
          subst h
          simp [List.contains_cons]
          exact ⟨fun he => hc (Eq.symm he), by simpa using hhd⟩
        · exact ih (by rw [hsp]; exact List.mem_cons_of_mem _ h)

theorem joinSep_splitOnC (c : Char) (s : Str) :
    joinSep [c] (splitOnC c s) = s := by
  induction s with
  | nil => rfl
  | cons a rest ih =>
    rcases hsp : splitOnC c rest with _ | ⟨hd, tl⟩
    · exact absurd hsp (splitOnC_ne_nil c rest)
    · rw [hsp] at ih
      by_cases hc : a = c
      · subst hc
        simp [splitOnC, hsp]
        cases tl <;> simp [joinSep] at ih ⊢ <;> simp [ih]
      · simp [splitOnC, hc, hsp]
        cases tl <;> simp [joinSep] at ih ⊢ <;> simp [ih]

theorem joinSep_append (sep : Str) {l1 l2 : List Str} (h1 : l1 ≠ []) (h2 : l2 ≠ []) :
    joinSep sep (l1 ++ l2) = joinSep sep l1 ++ sep ++ joinSep sep l2 := by
  induction l1 with
  | nil => exact absurd rfl h1
  | cons x xs ih =>
    cases xs with
    | nil => cases l2 with
      | nil => exact absurd rfl h2
      | cons y ys => simp [joinSep]
    | cons x2 xs2 =>
      have := ih (by simp)
      simp only [List.cons_append, joinSep] at *
      simp [this]

theorem splitOnC_append_sep (c : Char) {x : Str} (r : Str)
    (hx : x.contains c = false) :
    splitOnC c (x ++ c :: r) = x :: splitOnC c r := by
  induction x with
  | nil => simp [splitOnC]
  | cons a xs ih =>
    simp [List.contains_cons] at hx
    have hne : ¬ a = c := by
      intro he
      simp [he] at hx
    have ihr := ih (by simpa using hx.2)
    simp [splitOnC, List.cons_append, ihr, hne]

theorem splitOnC_append_last (c : Char) (s : Str) :
    splitOnC c (s ++ [c]) = splitOnC c s ++ [[]] := by
  induction s with
  | nil => simp [splitOnC]
  | cons a rest ih =>
    by_cases hc : a = c
    · simp [splitOnC, List.cons_append, hc, ih]
    · rcases hsp : splitOnC c rest with _ | ⟨hd, tl⟩
      · exact absurd hsp (splitOnC_ne_nil c rest)
      · simp [splitOnC, List.cons_append, hc, ih, hsp]

theorem splitOnC_joinSep (c : Char) {l : List Str} (hne : l ≠ [])
    (h : ∀ p ∈ l, p.contains c = false) :
    splitOnC c (joinSep [c] l) = l := by
  induction l with
  | nil => exact absurd rfl hne
  | cons x xs ih =>
    cases xs with
    | nil => simp [joinSep, splitOnC_no_sep (h x (by simp))]
    | cons y ys =>
      have hx : x.contains c = false := h x (by simp)
      have hrec := ih (by simp) (fun p hp => h p (List.mem_cons_of_mem _ hp))
      simp only [joinSep]
      rw [List.append_assoc, List.singleton_append, splitOnC_append_sep c _ hx, hrec]

theorem length_splitOnC_of_contains {c : Char} {s : Str}
    (h : s.contains c = true) : 2 ≤ (splitOnC c s).length := by
  induction s with
  | nil => simp at h
  | cons a rest ih =>
    by_cases hc : a = c
    · have := splitOnC_ne_nil c rest
      have : 1 ≤ (splitOnC c rest).length := by
        cases hsp : splitOnC c rest with
        | nil => exact absurd hsp (splitOnC_ne_nil c rest)
        | cons _ _ => simp
      simp [splitOnC, hc]
      omega
    · simp [List.contains_cons] at h
      rcases h with h | h
      · exact absurd (Eq.symm h) hc
      have h2 : 2 ≤ (splitOnC c rest).length := ih (by simpa using h)
      rcases hsp : splitOnC c rest with _ | ⟨hd, tl⟩
      · exact absurd hsp (splitOnC_ne_nil c rest)
      · rw [hsp] at h2
        simp at h2
        simp [splitOnC, hc, hsp]
        omega

theorem containsC_append (l1 l2 : Str) (c : Char) :
    (l1 ++ l2).contains c = (l1.contains c || l2.contains c) := by
  induction l1 with
  | nil => simp
  | cons a l ih => simp [List.contains_cons, ih, Bool.or_assoc]

theorem splitOnC_join_sep_append (c : Char) {L : List Str} (hL : L ≠ [])
    (hno : ∀ p ∈ L, p.contains c = false) (r : Str) :
    splitOnC c (joinSep [c] L ++ c :: r) = L ++ splitOnC c r := by
  induction L with
  | nil => exact absurd rfl hL
  | cons x xs ih =>
    cases xs with
    | nil => simp [joinSep, splitOnC_append_sep c r (hno x (by simp))]
    | cons y ys =>
      have hx : x.contains c = false := hno x (by simp)
      have hih := ih (by simp) (fun p hp => hno p (List.mem_cons_of_mem _ hp))
      have hre : joinSep [c] (x :: y :: ys) ++ c :: r
          = x ++ c :: (joinSep [c] (y :: ys) ++ c :: r) := by
        simp [joinSep]
      rw [hre, splitOnC_append_sep c _ hx, hih]
      simp

/-! ### `ScrollBackIO` / `sb_write` lemmas -/

theorem sb_write_registry (st : State) (s : Str) :
    (sb_write st s).registry = st.registry := by
  simp only [sb_write]
  split <;> rfl

theorem sb_write_handlers (st : State) (s : Str) :
    (sb_write st s).handlers = st.handlers := by
  simp only [sb_write]
  split <;> rfl

theorem sb_write_nextId (st : State) (s : Str) :
    (sb_write st s).nextId = st.nextId := by
  simp only [sb_write]
  split <;> rfl

theorem sb_write_scrollback (st : State) (s : Str) :
    ∃ t, (sb_write st s).scrollback = st.scrollback ++ t := by
  simp only [sb_write]
  split
  · exact ⟨_, rfl⟩
  · exact ⟨[], by simp⟩

theorem writeline_registry (st : State) (s : Str) :
    (writeline st s).registry = st.registry := by
  simp [writeline, sb_write_registry]

theorem writeline_handlers (st : State) (s : Str) :
    (writeline st s).handlers = st.handlers := by
  simp [writeline, sb_write_handlers]

theorem writeline_nextId (st : State) (s : Str) :
    (writeline st s).nextId = st.nextId := by
  simp [writeline, sb_write_nextId]

theorem writeline_scrollback (st : State) (s : Str) :
    ∃ t, (writeline st s).scrollback = st.scrollback ++ t := by
  obtain ⟨t1, h1⟩ := sb_write_scrollback st s
  obtain ⟨t2, h2⟩ := sb_write_scrollback (sb_write st s) nlS
  exact ⟨t1 ++ t2, by simp [writeline, h2, h1]⟩

theorem writeAll_registry (st : State) (ls : List Str) :
    (writeAll st ls).registry = st.registry := by
  induction ls generalizing st with
  | nil => rfl
  | cons l ls ih => simp [writeAll] at ih ⊢; rw [ih, writeline_registry]

theorem writeAll_handlers (st : State) (ls : List Str) :
    (writeAll st ls).handlers = st.handlers := by
  induction ls generalizing st with
  | nil => rfl
  | cons l ls ih => simp [writeAll] at ih ⊢; rw [ih, writeline_handlers]

theorem writeAll_nextId (st : State) (ls : List Str) :
    (writeAll st ls).nextId = st.nextId := by
  induction ls generalizing st with
  | nil => rfl
  | cons l ls ih => simp [writeAll] at ih ⊢; rw [ih, writeline_nextId]

theorem writeAll_scrollback (st : State) (ls : List Str) :
    ∃ t, (writeAll st ls).scrollback = st.scrollback ++ t := by
  induction ls generalizing st with
  | nil => exact ⟨[], by simp [writeAll]⟩
  | cons l ls ih =>
    obtain ⟨t1, h1⟩ := writeline_scrollback st l
    obtain ⟨t2, h2⟩ := ih (writeline st l)
    exact ⟨t1 ++ t2, by simp [writeAll] at h2 ⊢; rw [h2, h1, List.append_assoc]⟩

theorem dropLast_append_getLastD {α : Type} {l : List (List α)} (h : l ≠ []) :
    l.dropLast ++ [l.getLastD []] = l := by
  rw [List.getLastD_eq_getLast?, List.getLast?_eq_getLast l h]
  simp [List.dropLast_append_getLast]

theorem getLastD_mem {α : Type} {l : List (List α)} (h : l ≠ []) :
    l.getLastD [] ∈ l := by
  rw [List.getLastD_eq_getLast?, List.getLast?_eq_getLast l h]
  exact List.getLast_mem h

theorem dropLast_ne_nil_of_contains {s : Str} {c : Char}
    (h : s.contains c = true) : (splitOnC c s).dropLast ≠ [] := by
  have hlen := length_splitOnC_of_contains h
  intro hcon
  have := congrArg List.length hcon
  simp [List.length_dropLast] at this
  omega

/-- The shape of a flushing write: the lines up to the last newline of
`buffer ++ s` are appended (tabs replaced), the remainder stays buffered. -/
theorem sb_write_contains {st : State} {s : Str}
    (h : (st.buffer ++ s).contains '\n' = true) :
    sb_write st s = { st with
      scrollback := st.scrollback ++
        ((splitOnC '\n' (st.buffer ++ s)).dropLast).map replaceTab,
      buffer := (splitOnC '\n' (st.buffer ++ s)).getLastD [] } := by
  have hdrop_ne := dropLast_ne_nil_of_contains h
  have hnosep : ∀ p ∈ (splitOnC '\n' (st.buffer ++ s)).dropLast,
      p.contains '\n' = false :=
    fun p hp => mem_splitOnC_no_sep (List.dropLast_subset _ hp)
  simp only [sb_write, h, if_pos, add_scrollback]
  rw [show (nlS : Str) = ['\n'] from rfl, splitOnC_joinSep '\n' hdrop_ne hnosep]

theorem sb_write_not_contains {st : State} {s : Str}
    (h : (st.buffer ++ s).contains '\n' = false) :
    sb_write st s = { st with buffer := st.buffer ++ s } := by
  simp only [sb_write, h, Bool.false_eq_true, if_false]

/-- A `writeline` on an empty buffer appends exactly the lines of its
argument (tabs replaced) and leaves the buffer empty. -/
theorem writeline_of_empty {st : State} (h : st.buffer = []) (s : Str) :
    writeline st s = { st with
      scrollback := st.scrollback ++ (splitOnC '\n' s).map replaceTab,
      buffer := [] } := by
  have hbs : st.buffer ++ s = s := by rw [h, List.nil_append]
  by_cases hs : s.contains '\n'
  · have h1 : (st.buffer ++ s).contains '\n' = true := by rw [hbs]; exact hs
    rw [writeline, sb_write_contains h1, hbs]
    have hlast_nosep : ((splitOnC '\n' s).getLastD []).contains '\n' = false :=
      mem_splitOnC_no_sep (getLastD_mem (splitOnC_ne_nil '\n' _))
    have h2 : ((({ st with
        scrollback := st.scrollback ++ ((splitOnC '\n' s).dropLast).map replaceTab,
        buffer := (splitOnC '\n' s).getLastD [] } : State)).buffer ++ nlS).contains '\n'
        = true := by
      rw [containsC_append]
      simp [nlS]
    rw [sb_write_contains h2]
    rw [show (nlS : Str) = ['\n'] from rfl]
    have h3 : (({ st with
        scrollback := st.scrollback ++ ((splitOnC '\n' s).dropLast).map replaceTab,
        buffer := (splitOnC '\n' s).getLastD [] } : State)).buffer =
        (splitOnC '\n' s).getLastD [] := rfl
    rw [h3, splitOnC_append_last, splitOnC_no_sep hlast_nosep]
    simp only [List.dropLast_concat, List.getLastD_concat]
    rw [List.append_assoc, ← List.map_append,
      dropLast_append_getLastD (splitOnC_ne_nil '\n' s)]
  · have hs2 : s.contains '\n' = false := by simpa using hs
    have h1 : (st.buffer ++ s).contains '\n' = false := by rw [hbs]; exact hs2
    rw [writeline, sb_write_not_contains h1]
    have h2 : ((({ st with buffer := st.buffer ++ s } : State)).buffer ++ nlS).contains '\n'
        = true := by
      rw [containsC_append]
      simp [nlS]
    rw [sb_write_contains h2]
    have h3 : (({ st with buffer := st.buffer ++ s } : State)).buffer = s := hbs
    rw [h3, show (nlS : Str) = ['\n'] from rfl, splitOnC_append_last,
      splitOnC_no_sep hs2]
    simp

theorem replaceTab_no_tab {s : Str} (h : s.contains '\t' = false) :
    replaceTab s = s := by
  induction s with
  | nil => rfl
  | cons a rest ih =>
    simp [List.contains_cons] at h
    have hne : ¬ a = '\t' := by
      intro he
      simp [he] at h
    simp [replaceTab] at ih ⊢
    simp [hne, ih (by simpa using h.2)]

theorem keysA_mem_exists {α : Type} {m : List (Str × α)} {k : Str}
    (h : k ∈ keysA m) : ∃ v, (k, v) ∈ m := by
  induction m with
  | nil => simp [keysA] at h
  | cons p rest ih =>
    rw [keysA_cons] at h
    rcases List.mem_cons.mp h with h1 | h1
    · exact ⟨p.2, by rw [h1]; exact List.mem_cons_self _ _⟩
    · obtain ⟨v, hv⟩ := ih h1
      exact ⟨v, List.mem_cons_of_mem _ hv⟩

/-! ### `ScrollBackIO` in isolation (claim C9) -/

theorem sbio_write_contains {io : ScrollBackIO} {s : Str}
    (h : (io.buffer ++ s).contains '\n' = true) :
    io.write s = ⟨io.flushed ++ [joinSep nlS ((splitOnC '\n' (io.buffer ++ s)).dropLast)],
      (splitOnC '\n' (io.buffer ++ s)).getLastD []⟩ := by
  simp only [ ScrollBackIO.write, h, if_pos]

theorem sbio_write_not_contains {io : ScrollBackIO} {s : Str}
    (h : (io.buffer ++ s).contains '\n' = false) :
    io.write s = { io with buffer := io.buffer ++ s } := by
  simp only [ ScrollBackIO.write, h, Bool.false_eq_true, if_false]

theorem sentPlusBuffer_append (fl : List Str) (b s : Str) :
    sentPlusBuffer fl (b ++ s) = sentPlusBuffer fl b ++ s := by
  cases fl <;> simp [sentPlusBuffer]

/-- One `ScrollBackIO.write` extends the text accounted for by exactly the
string written, and keeps the residual buffer newline-free. -/
theorem sbio_write_step (io : ScrollBackIO) (s : Str) :
    sentPlusBuffer (io.write s).flushed (io.write s).buffer
      = sentPlusBuffer io.flushed io.buffer ++ s ∧
    (io.write s).buffer.contains '\n' = false := by
  by_cases hc : (io.buffer ++ s).contains '\n'
  · rw [sbio_write_contains hc]
    have hdrop_ne := dropLast_ne_nil_of_contains hc
    have hlast : ((splitOnC '\n' (io.buffer ++ s)).getLastD []).contains '\n' = false :=
      mem_splitOnC_no_sep (getLastD_mem (splitOnC_ne_nil '\n' _))
    have hkey : joinSep nlS ((splitOnC '\n' (io.buffer ++ s)).dropLast) ++
        '\n' :: ((splitOnC '\n' (io.buffer ++ s)).getLastD []) = io.buffer ++ s := by
      have h1 := joinSep_splitOnC '\n' (io.buffer ++ s)
      have h2 := dropLast_append_getLastD (splitOnC_ne_nil '\n' (io.buffer ++ s))
      calc joinSep nlS ((splitOnC '\n' (io.buffer ++ s)).dropLast) ++
            '\n' :: ((splitOnC '\n' (io.buffer ++ s)).getLastD [])
          = joinSep ['\n'] ((splitOnC '\n' (io.buffer ++ s)).dropLast) ++ ['\n'] ++
            joinSep ['\n'] [(splitOnC '\n' (io.buffer ++ s)).getLastD []] := by
            simp [nlS, joinSep]
        _ = joinSep ['\n'] ((splitOnC '\n' (io.buffer ++ s)).dropLast ++
            [(splitOnC '\n' (io.buffer ++ s)).getLastD []]) := by
            rw [joinSep_append ['\n'] hdrop_ne (by simp)]
        _ = io.buffer ++ s := by rw [h2, h1]
    refine ⟨?_, hlast⟩
    rcases hfl : io.flushed with _ | ⟨f, fs⟩
    · simp only [List.nil_append, sentPlusBuffer]
      have hJ : joinSep nlS [joinSep nlS ((splitOnC '\n' (io.buffer ++ s)).dropLast)]
          = joinSep nlS ((splitOnC '\n' (io.buffer ++ s)).dropLast) := rfl
      rw [hJ]
      exact hkey
    · simp only [sentPlusBuffer, List.cons_append]
      generalize hJ2 : joinSep nlS ((splitOnC '\n' (io.buffer ++ s)).dropLast) = J at hkey ⊢
      generalize hL2 : (splitOnC '\n' (io.buffer ++ s)).getLastD [] = L at hkey ⊢
      rw [show (f :: (fs ++ [J]) : List Str) = (f :: fs) ++ [J] from by simp]
      rw [joinSep_append nlS (by simp : (f :: fs : List Str) ≠ []) (by simp),
        show joinSep nlS [J] = J from rfl,
        List.append_assoc, List.append_assoc, hkey]
      simp [nlS]
  · have hc2 : (io.buffer ++ s).contains '\n' = false := by simpa using hc
    rw [sbio_write_not_contains hc2]
    exact ⟨sentPlusBuffer_append _ _ _, hc2⟩

theorem sbio_run_step (ws : List Str) (io : ScrollBackIO)
    (hb : io.buffer.contains '\n' = false) :
    sentPlusBuffer (List.foldl ScrollBackIO.write io ws).flushed
        (List.foldl ScrollBackIO.write io ws).buffer
      = sentPlusBuffer io.flushed io.buffer ++ ws.flatten ∧
    (List.foldl ScrollBackIO.write io ws).buffer.contains '\n' = false := by
  induction ws generalizing io with
  | nil => exact ⟨by simp, hb⟩
  | cons w ws ih =>
    obtain ⟨h1, h2⟩ := sbio_write_step io w
    obtain ⟨h3, h4⟩ := ih (io.write w) h2
    refine ⟨?_, by simpa using h4⟩
    simp only [List.foldl_cons, List.flatten_cons] at *
    rw [h3, h1, List.append_assoc]

/-! ### `do_watching` support (claim C7) -/

theorem indentS_no_nl : indentS.contains '\n' = false := by decide

theorem indentS_no_tab : indentS.contains '\t' = false := by decide

theorem splitOnC_indent_join {keys : List Str} (hne : keys ≠ [])
    (hk : ∀ k ∈ keys, k.contains '\n' = false) :
    splitOnC '\n' (indentS ++ joinSep ('\n' :: indentS) keys)
      = keys.map (fun k => indentS ++ k) := by
  induction keys with
  | nil => exact absurd rfl hne
  | cons k rest ih =>
    cases rest with
    | nil =>
      have hik : (indentS ++ k).contains '\n' = false := by
        rw [containsC_append, indentS_no_nl, hk k (by simp)]
        rfl
      simp [joinSep, splitOnC_no_sep hik]
    | cons k2 rest2 =>
      have hik : (indentS ++ k).contains '\n' = false := by
        rw [containsC_append, indentS_no_nl, hk k (by simp)]
        rfl
      have hre : indentS ++ joinSep ('\n' :: indentS) (k :: k2 :: rest2)
          = (indentS ++ k) ++ '\n' :: (indentS ++ joinSep ('\n' :: indentS) (k2 :: rest2)) := by
        simp [joinSep]
      rw [hre, splitOnC_append_sep '\n' _ hik,
        ih (by simp) (fun p hp => hk p (List.mem_cons_of_mem _ hp))]
      simp

/-! ### Claim theorems C9 and C7 -/

/-- C9: after every sequence of `ScrollBackIO.write` calls on a fresh
instance, the concatenation of all text sent to the scrollback (flushed
chunks joined by the newlines the flushes consumed, line structure
preserved) plus the residual internal buffer equals the concatenation of
all strings written, and the residual buffer never contains a newline. -/
theorem scrollbackio_preserves_text (ws : List Str) :
    sentPlusBuffer (List.foldl ScrollBackIO.write ⟨[], []⟩ ws).flushed
        (List.foldl ScrollBackIO.write ⟨[], []⟩ ws).buffer = ws.flatten ∧
    (List.foldl ScrollBackIO.write ⟨[], []⟩ ws).buffer.contains '\n' = false := by
  have h := sbio_run_step ws ⟨[], []⟩ (by rfl)
  simpa [sentPlusBuffer] using h

/-- C7: with a clean output buffer, `do_watching` appends to the scrollback
one line per watched logger, the logger name prefixed by the indent
string, in map order; with nothing watched it appends
`*** No loggers being watched`. -/
theorem do_watching_lists (st : State) (hbuf : st.buffer = [])
    (hk : ∀ p ∈ st.handlers, p.1.contains '\n' = false ∧ p.1.contains '\t' = false) :
    (st.handlers ≠ [] →
      (do_watching st).scrollback
        = st.scrollback ++ (keysA st.handlers).map (fun k => indentS ++ k)) ∧
    (st.handlers = [] →
      (do_watching st).scrollback = st.scrollback ++ [msgNoneWatched]) := by
  constructor
  · intro hne
    have hlen : st.handlers.length ≠ 0 := by
      cases hh : st.handlers
      · exact absurd hh hne
      · simp [hh]
    rw [do_watching, if_pos hlen, writeline_of_empty hbuf]
    have hkeys_ne : keysA st.handlers ≠ [] := by
      cases hh : st.handlers
      · exact absurd hh hne
      · simp [hh, keysA]
    have hknl : ∀ k ∈ keysA st.handlers, k.contains '\n' = false := by
      intro k hkm
      obtain ⟨v, hv⟩ := keysA_mem_exists hkm
      exact (hk (k, v) hv).1
    have hktab : ∀ k ∈ keysA st.handlers, k.contains '\t' = false := by
      intro k hkm
      obtain ⟨v, hv⟩ := keysA_mem_exists hkm
      exact (hk (k, v) hv).2
    rw [splitOnC_indent_join hkeys_ne hknl]
    have hmap : ((keysA st.handlers).map (fun k => indentS ++ k)).map replaceTab
        = (keysA st.handlers).map (fun k => indentS ++ k) := by
      rw [List.map_map]
      refine List.map_eq_map_iff.mpr ?_
      intro k hkm
      refine replaceTab_no_tab ?_
      rw [containsC_append, indentS_no_tab, hktab k hkm]
      rfl
    rw [hmap]
  · intro hemp
    have hlen : ¬ st.handlers.length ≠ 0 := by rw [hemp]; simp
    rw [do_watching, if_neg hlen, writeline_of_empty hbuf]
    have : (splitOnC '\n' msgNoneWatched).map replaceTab = [msgNoneWatched] := by decide
    rw [this]

/-- Witness for C7 at a concrete watched state. -/
theorem do_watching_lists_witness :
    (watchedState.buffer = [] ∧
      (∀ p ∈ watchedState.handlers,
        p.1.contains '\n' = false ∧ p.1.contains '\t' = false)) ∧
    ((watchedState.handlers ≠ [] →
      (do_watching watchedState).scrollback
        = watchedState.scrollback ++
          (keysA watchedState.handlers).map (fun k => indentS ++ k)) ∧
    (watchedState.handlers = [] →
      (do_watching watchedState).scrollback
        = watchedState.scrollback ++ [msgNoneWatched])) :=
  ⟨⟨rfl, by decide⟩, do_watching_lists watchedState rfl (by decide)⟩

/-! ### Claims C2, C3, C4 -/

theorem addHandlerL_fresh {hs : List Nat} {h : Nat}
    (hc : hs.contains h = false) : addHandlerL hs h = hs ++ [h] := by
  have h2 : h ∉ hs := by simpa using hc
  simp [addHandlerL, h2]

/-- The successful branch of `do_watch`. -/
theorem do_watch_success (st : State) (name : Str) (lg : Logger)
    (h1 : lookupA st.registry name = some (Entry.real lg))
    (h2 : lookupA st.handlers name = none) :
    do_watch st name = { st with
      registry := insertA st.registry name
        (Entry.real { lg with handlers := addHandlerL lg.handlers st.nextId }),
      handlers := st.handlers ++ [(name, st.nextId)],
      nextId := st.nextId + 1 } := by
  simp only [do_watch, h1, h2, Option.isSome_none, Bool.false_eq_true, if_false,
    insertA_of_lookupA_none _ h2]

theorem erase_append_fresh {hs : List Nat} {h : Nat}
    (hc : hs.contains h = false) : (hs ++ [h]).erase h = hs := by
  induction hs with
  | nil => simp
  | cons a rest ih =>
    simp [List.contains_cons] at hc
    have hne : ¬ a = h := by
      intro he
      simp [he] at hc
    rw [List.cons_append, List.erase_cons]
    simp [hne, ih (by simpa using hc.2)]

/-- C3: watching then unwatching a real, not-yet-watched logger restores the
watched-handler map and the registry (hence that logger's handler list)
exactly. The hypothesis `lg.handlers.contains st.nextId = false` says the
fresh handler object is not already attached; it holds in every reachable
state because attached plugin handler ids are below the counter
(see `Inv`). -/
theorem watch_unwatch_roundtrip (st : State) (name : Str) (lg : Logger)
    (h1 : lookupA st.registry name = some (Entry.real lg))
    (h2 : lookupA st.handlers name = none)
    (h3 : lg.handlers.contains st.nextId = false) :
    (do_unwatch (do_watch st name) name).handlers = st.handlers ∧
    (do_unwatch (do_watch st name) name).registry = st.registry := by
  rw [do_watch_success st name lg h1 h2, addHandlerL_fresh h3]
  have hpop : popA (st.handlers ++ [(name, st.nextId)]) name
      = some (st.nextId, st.handlers) := popA_append_of_none _ h2
  have hreg : lookupA (insertA st.registry name
      (Entry.real { lg with handlers := lg.handlers ++ [st.nextId] })) name
      = some (Entry.real { lg with handlers := lg.handlers ++ [st.nextId] }) :=
    lookupA_insertA_self _ _ _
  simp only [do_unwatch, hpop, hreg]
  rw [erase_append_fresh h3, insertA_insertA, insertA_of_lookupA_self h1]
  exact ⟨trivial, rfl⟩

/-- Witness for C3 at a concrete state. -/
theorem watch_unwatch_roundtrip_witness :
    (lookupA sampleState.registry "alpha".data
        = some (Entry.real { level := 30, handlers := [] }) ∧
      lookupA sampleState.handlers "alpha".data = none ∧
      (Logger.handlers { level := 30, handlers := [] }).contains sampleState.nextId
        = false) ∧
    ((do_unwatch (do_watch sampleState "alpha".data) "alpha".data).handlers
        = sampleState.handlers ∧
      (do_unwatch (do_watch sampleState "alpha".data) "alpha".data).registry
        = sampleState.registry) :=
  ⟨⟨by decide, by decide, by decide⟩,
    watch_unwatch_roundtrip sampleState "alpha".data { level := 30, handlers := [] }
      (by decide) (by decide) (by decide)⟩

/-- C2: `set_level` on an argument of exactly two words only changes a level
on a watched logger. Unwatched: only the error line is written and the
registry is unchanged. Watched with an unknown level word: only the error
line is written, registry unchanged. Watched with one of the five level
words: the named logger's level becomes the matching `LEVELS` value. -/
theorem set_level_only_watched (st : State) (arg name level : Str)
    (hsplit : splitOnC ' ' arg = [name, level]) :
    (lookupA st.handlers name = none →
      do_set_level st arg = writeline st msgOnlyWatched ∧
      (do_set_level st arg).registry = st.registry) ∧
    (∀ lg, (lookupA st.handlers name).isSome = true →
      lookupA st.registry name = some (Entry.real lg) →
      lookupA LEVELS level = none →
      do_set_level st arg = writeline st (msgUnknownLevel ++ level) ∧
      (do_set_level st arg).registry = st.registry) ∧
    (∀ lg v, (lookupA st.handlers name).isSome = true →
      lookupA st.registry name = some (Entry.real lg) →
      lookupA LEVELS level = some v →
      (do_set_level st arg).registry
        = insertA st.registry name (Entry.real { lg with level := v }) ∧
      lookupA (do_set_level st arg).registry name
        = some (Entry.real { lg with level := v })) := by
  refine ⟨?_, ?_, ?_⟩
  · intro hnw
    have he : do_set_level st arg = writeline st msgOnlyWatched := by
      rw [do_set_level, hsplit]
      simp only [hnw]
    exact ⟨he, by rw [he, writeline_registry]⟩
  · intro lg hw hreg hlev
    obtain ⟨hid, hsome⟩ := Option.isSome_iff_exists.mp hw
    have he : do_set_level st arg = writeline st (msgUnknownLevel ++ level) := by
      rw [do_set_level, hsplit]
      simp only [hsome, getLoggerEff, hreg, hlev]
    exact ⟨he, by rw [he, writeline_registry]⟩
  · intro lg v hw hreg hlev
    obtain ⟨hid, hsome⟩ := Option.isSome_iff_exists.mp hw
    have he : do_set_level st arg = { st with
        registry := insertA st.registry name (Entry.real { lg with level := v }) } := by
      rw [do_set_level, hsplit]
      simp only [hsome, getLoggerEff, hreg, hlev]
    exact ⟨by rw [he], by rw [he]; exact lookupA_insertA_self _ _ _⟩

/-- Witness for C2 at a concrete watched state, setting level `debug`. -/
theorem set_level_only_watched_witness :
    splitOnC ' ' "alpha debug".data = ["alpha".data, "debug".data] ∧
    ((lookupA watchedState.handlers "alpha".data).isSome = true ∧
      lookupA watchedState.registry "alpha".data
        = some (Entry.real { level := 30, handlers := [5] }) ∧
      lookupA LEVELS "debug".data = some 10) ∧
    ((do_set_level watchedState "alpha debug".data).registry
      = insertA watchedState.registry "alpha".data
          (Entry.real { level := 10, handlers := [5] }) ∧
    lookupA (do_set_level watchedState "alpha debug".data).registry "alpha".data
      = some (Entry.real { level := 10, handlers := [5] })) :=
  ⟨by decide, ⟨by decide, by decide, by decide⟩,
    (set_level_only_watched watchedState "alpha debug".data "alpha".data "debug".data
      (by decide)).2.2 { level := 30, handlers := [5] } 10
      (by decide) (by decide) (by decide)⟩

/-- C4: `do_watch` on a real, not-yet-watched logger records a fresh handler
under that name in the watched-handler map, appends it to the logger's
handler list, and a record then emitted through that handler (the
`StreamHandler` on the console's output with `BASIC_FORMAT`) is appended
to the scrollback as one formatted line. -/
theorem do_watch_attaches (st : State) (name : Str) (lg : Logger)
    (h1 : lookupA st.registry name = some (Entry.real lg))
    (h2 : lookupA st.handlers name = none)
    (h3 : lg.handlers.contains st.nextId = false)
    (h4 : st.buffer = []) :
    (do_watch st name).handlers = st.handlers ++ [(name, st.nextId)] ∧
    lookupA (do_watch st name).registry name
      = some (Entry.real { lg with handlers := lg.handlers ++ [st.nextId] }) ∧
    ∀ levelname msg : Str,
      (format_basic levelname name msg).contains '\n' = false →
      (handler_emit (do_watch st name) levelname name msg).scrollback
        = (do_watch st name).scrollback
          ++ [replaceTab (format_basic levelname name msg)] := by
  rw [do_watch_success st name lg h1 h2, addHandlerL_fresh h3]
  refine ⟨rfl, lookupA_insertA_self _ _ _, ?_⟩
  intro levelname msg hnl
  set st1 : State := { st with
    registry := insertA st.registry name
      (Entry.real { lg with handlers := lg.handlers ++ [st.nextId] }),
    handlers := st.handlers ++ [(name, st.nextId)],
    nextId := st.nextId + 1 } with hst1
  have hb1 : st1.buffer = [] := h4
  have hcon : (st1.buffer ++ (format_basic levelname name msg ++ nlS)).contains '\n'
      = true := by
    rw [hb1, List.nil_append, containsC_append, hnl]
    rfl
  rw [handler_emit, sb_write_contains hcon, hb1, List.nil_append]
  rw [show (nlS : Str) = ['\n'] from rfl, splitOnC_append_last, splitOnC_no_sep hnl]
  simp

/-- Witness for C4 at a concrete state and record. -/
theorem do_watch_attaches_witness :
    (lookupA sampleState.registry "alpha".data
        = some (Entry.real { level := 30, handlers := [] }) ∧
      lookupA sampleState.handlers "alpha".data = none ∧
      (Logger.handlers { level := 30, handlers := [] }).contains sampleState.nextId
        = false ∧
      sampleState.buffer = []) ∧
    ((do_watch sampleState "alpha".data).handlers
        = sampleState.handlers ++ [("alpha".data, sampleState.nextId)] ∧
      lookupA (do_watch sampleState "alpha".data).registry "alpha".data
        = some (Entry.real { level := 30, handlers := [sampleState.nextId] }) ∧
      ∀ levelname msg : Str,
        (format_basic levelname "alpha".data msg).contains '\n' = false →
        (handler_emit (do_watch sampleState "alpha".data) levelname "alpha".data msg).scrollback
          = (do_watch sampleState "alpha".data).scrollback
            ++ [replaceTab (format_basic levelname "alpha".data msg)]) :=
  ⟨⟨by decide, by decide, by decide, rfl⟩,
    do_watch_attaches sampleState "alpha".data { level := 30, handlers := [] }
      (by decide) (by decide) (by decide) rfl⟩

/-! ### Claim C5: the scrollback is append-only -/

/-- C5: every console operation (each `do_*` command and each raw write
through the console's output object) that terminates only appends lines to
the scrollback; nothing already in the scrollback is removed or altered. -/
theorem ops_append_only (st : State) (op : Op) (st2 : State)
    (h : runOp st op = some st2) :
    ∃ t, st2.scrollback = st.scrollback ++ t := by
  cases op with
  | clear n =>
    simp only [runOp, Option.some.injEq] at h
    subst h
    exact sb_write_scrollback st _
  | write s =>
    simp only [runOp, Option.some.injEq] at h
    subst h
    exact sb_write_scrollback st s
  | watching =>
    simp only [runOp, Option.some.injEq] at h
    subst h
    rw [do_watching]
    split
    · exact writeline_scrollback _ _
    · exact writeline_scrollback _ _
  | list_all =>
    simp only [runOp, Option.some.injEq] at h
    subst h
    exact writeline_scrollback st _
  | watch a =>
    simp only [runOp, Option.some.injEq] at h
    subst h
    rw [do_watch]
    split
    · exact writeline_scrollback _ _
    · split
      · exact writeline_scrollback _ _
      · exact writeline_scrollback _ _
      · exact ⟨[], by simp⟩
  | unwatch a =>
    simp only [runOp, Option.some.injEq] at h
    subst h
    rw [do_unwatch]
    split
    · exact writeline_scrollback _ _
    · split
      · exact writeline_scrollback _ _
      · exact ⟨[], by simp⟩
      · exact ⟨[], by simp⟩
  | set_level a =>
    simp only [runOp, Option.some.injEq] at h
    subst h
    rw [do_set_level]
    split
    · split
      · exact writeline_scrollback _ _
      · split
        · exact writeline_scrollback _ _
        · exact ⟨[], by simp⟩
    · exact writeline_scrollback _ _
  | list_loggers a =>
    simp only [runOp, Option.some.injEq] at h
    subst h
    rw [do_list_loggers]
    split
    · dsimp only
      split
      · exact writeline_scrollback _ _
      · exact writeAll_scrollback _ _
    · split
      · exact writeline_scrollback _ _
      · dsimp only
        split
        · exact writeline_scrollback _ _
        · exact writeAll_scrollback _ _
  | tree a =>
    rw [runOp, do_tree] at h
    split at h
    · simp only [Option.some.injEq] at h
      subst h
      obtain ⟨t1, h1⟩ := writeline_scrollback st (indentS ++ "root".data)
      obtain ⟨t2, h2⟩ := writeAll_scrollback (writeline st (indentS ++ "root".data)) _
      exact ⟨t1 ++ t2, by rw [h2, h1, List.append_assoc]⟩
    · split at h
      · exact absurd h (by simp)
      · simp only [Option.some.injEq] at h
        subst h
        obtain ⟨t1, h1⟩ := writeline_scrollback st (indentS ++ a)
        obtain ⟨t2, h2⟩ := writeAll_scrollback (writeline st (indentS ++ a)) _
        exact ⟨t1 ++ t2, by rw [h2, h1, List.append_assoc]⟩

/-- Witness for C5 at a concrete state and operation. -/
theorem ops_append_only_witness :
    runOp sampleState Op.watching = some (do_watching sampleState) ∧
    ∃ t, (do_watching sampleState).scrollback = sampleState.scrollback ++ t :=
  ⟨rfl, ops_append_only sampleState Op.watching (do_watching sampleState) rfl⟩

/-! ### Claim C6: the logger-name completer -/

theorem containsA_append {α : Type} [BEq α] (l1 l2 : List α) (c : α) :
    (l1 ++ l2).contains c = (l1.contains c || l2.contains c) := by
  induction l1 with
  | nil => simp
  | cons a l ih => simp [List.contains_cons, ih, Bool.or_assoc]

theorem mem_dedupKeepFirst {xs : List Str} {y : Str}
    (h : y ∈ dedupKeepFirst xs) : y ∈ xs := by
  induction xs using dedupKeepFirst.induct with
  | case1 => simp [dedupKeepFirst] at h
  | case2 x rest ih =>
    rw [dedupKeepFirst] at h
    rcases List.mem_cons.mp h with h1 | h1
    · rw [h1]
      exact List.mem_cons_self _ _
    · exact List.mem_cons_of_mem _ (List.mem_of_mem_filter (ih h1))

theorem dedupKeepFirst_nodup (xs : List Str) : (dedupKeepFirst xs).Nodup := by
  induction xs using dedupKeepFirst.induct with
  | case1 => simp [dedupKeepFirst]
  | case2 x rest ih =>
    rw [dedupKeepFirst, List.nodup_cons]
    refine ⟨?_, ih⟩
    intro hmem
    have := List.of_mem_filter (mem_dedupKeepFirst hmem)
    simp at this

theorem foldl_dedup_eq (xs acc : List Str) :
    xs.foldl (fun o x => if o.contains x then o else o ++ [x]) acc
      = acc ++ dedupKeepFirst (xs.filter (fun y => !(acc.contains y))) := by
  induction xs generalizing acc with
  | nil => simp [dedupKeepFirst]
  | cons x rest ih =>
    by_cases hx : acc.contains x
    · have hxm : x ∈ acc := List.elem_iff.mp hx
      simp only [List.foldl_cons, hx, if_true]
      rw [ih]
      have hfil : List.filter (fun y => !acc.contains y) (x :: rest)
          = List.filter (fun y => !acc.contains y) rest := by
        simp [List.filter_cons, hxm]
      rw [hfil]
    · have hx2 : acc.contains x = false := Bool.eq_false_iff.mpr hx
      have hxm : x ∉ acc := by simpa using hx2
      have hstep : (if acc.contains x = true then acc else acc ++ [x]) = acc ++ [x] := by
        simp [hxm]
      have hfil : List.filter (fun y => !acc.contains y) (x :: rest)
          = x :: List.filter (fun y => !acc.contains y) rest := by
        simp [List.filter_cons, hxm]
      rw [List.foldl_cons, hstep, ih, hfil, dedupKeepFirst]
      have hfe : rest.filter (fun y => !((acc ++ [x]).contains y))
          = (rest.filter (fun y => !(acc.contains y))).filter (fun y => y ≠ x) := by
        rw [List.filter_filter]
        refine List.filter_congr ?_
        intro y _
        rw [containsA_append]
        cases hya : acc.contains y <;> cases hyx : (y == x) <;>
          simp_all [List.contains_cons]
      rw [hfe]
      simp

theorem complete_loggers_fuse (text : Str) (loggers acc : List Str) :
    loggers.foldl
      (fun options logger =>
        if text.isPrefixOf logger then
          let l := text ++ topOf (logger.drop text.length)
          if options.contains l then options else options ++ [l]
        else options) acc
    = (completionCandidates loggers text).foldl
        (fun o x => if o.contains x then o else o ++ [x]) acc := by
  induction loggers generalizing acc with
  | nil => simp [completionCandidates]
  | cons lg rest ih =>
    by_cases hpre : text.isPrefixOf lg
    · simp only [completionCandidates, List.filter_cons, hpre, List.map_cons,
        List.foldl_cons, if_true]
      exact ih _
    · have hpre2 : text.isPrefixOf lg = false := Bool.eq_false_iff.mpr hpre
      simp only [completionCandidates, List.filter_cons, hpre2, Bool.false_eq_true,
        List.foldl_cons, if_false]
      exact ih _

/-- C6: for every prefix `text`, the completer returns exactly the candidate
strings — each registered name starting with `text`, extended with the
remainder up to (excluding) the next dot — in iteration order with
first-occurrence duplicate removal, hence without duplicates. -/
theorem complete_loggers_spec (loggers : List Str) (text : Str) :
    complete_loggers_from loggers text
      = dedupKeepFirst (completionCandidates loggers text) ∧
    (complete_loggers_from loggers text).Nodup := by
  have h1 : complete_loggers_from loggers text
      = dedupKeepFirst (completionCandidates loggers text) := by
    rw [complete_loggers_from, complete_loggers_fuse, foldl_dedup_eq]
    simp
  exact ⟨h1, h1 ▸ dedupKeepFirst_nodup _⟩

/-! ### Claim C8: `longest_common_prefix` -/

theorem pyLt_irrefl (s : Str) : pyLt s s = false := by
  induction s with
  | nil => rfl
  | cons a t ih => simp [pyLt, lt_irrefl, ih]

theorem pyLt_asymm {a b : Str} (h : pyLt a b = true) : pyLt b a = false := by
  induction a generalizing b with
  | nil =>
    cases b with
    | nil => simp [pyLt] at h
    | cons bh bt => simp [pyLt]
  | cons ah t ih =>
    cases b with
    | nil => simp [pyLt] at h
    | cons bh bt =>
      simp only [pyLt] at h ⊢
      by_cases h1 : ah < bh
      · rw [if_neg (lt_asymm h1), if_pos h1]
      · rw [if_neg h1] at h
        by_cases h2 : bh < ah
        · rw [if_pos h2] at h
          exact absurd h (by simp)
        · rw [if_neg h2] at h
          rw [if_neg h2, if_neg h1]
          exact ih h

theorem pyLe_trans {a b c : Str} (h1 : pyLt b a = false) (h2 : pyLt c b = false) :
    pyLt c a = false := by
  induction a generalizing b c with
  | nil =>
    cases c with
    | nil => rfl
    | cons ch ct => rfl
  | cons ah t ih =>
    cases b with
    | nil => simp [pyLt] at h1
    | cons bh bt =>
      cases c with
      | nil => simp [pyLt] at h2
      | cons ch ct =>
        simp only [pyLt] at h1 h2 ⊢
        by_cases hba : bh < ah
        · rw [if_pos hba] at h1
          exact absurd h1 (by simp)
        · rw [if_neg hba] at h1
          by_cases hcb : ch < bh
          · rw [if_pos hcb] at h2
            exact absurd h2 (by simp)
          · rw [if_neg hcb] at h2
            have hca : ¬ ch < ah := fun hlt =>
              absurd (lt_of_lt_of_le hlt (not_lt.mp hba)) hcb
            rw [if_neg hca]
            by_cases hac : ah < ch
            · rw [if_pos hac]
            · rw [if_neg hac]
              have hae : ah = ch := le_antisymm (not_lt.mp hca) (not_lt.mp hac)
              subst hae
              have hbe : bh = ah := le_antisymm (not_lt.mp hcb) (not_lt.mp hba)
              subst hbe
              rw [if_neg (lt_irrefl _)] at h1 h2
              exact ih h1 h2

theorem pyMin_le (l : List Str) (acc : Str) :
    ∀ x ∈ acc :: l, pyLt x (pyMin acc l) = false := by
  induction l generalizing acc with
  | nil =>
    intro x hx
    simp at hx
    rw [hx, pyMin, pyLt_irrefl]
  | cons y ys ih =>
    intro x hx
    rw [pyMin]
    by_cases hya : pyLt y acc
    · rw [if_pos hya]
      rcases List.mem_cons.mp hx with h1 | h1
      · rw [h1]
        have hy_min : pyLt y (pyMin y ys) = false := ih y y (List.mem_cons_self _ _)
        have hxy : pyLt acc y = false := pyLt_asymm hya
        exact pyLe_trans hy_min hxy
      · rcases List.mem_cons.mp h1 with h2 | h2
        · rw [h2]
          exact ih y y (List.mem_cons_self _ _)
        · exact ih y x (List.mem_cons_of_mem _ h2)
    · rw [if_neg hya]
      have hya2 : pyLt y acc = false := Bool.eq_false_iff.mpr hya
      rcases List.mem_cons.mp hx with h1 | h1
      · rw [h1]
        exact ih acc acc (List.mem_cons_self _ _)
      · rcases List.mem_cons.mp h1 with h2 | h2
        · rw [h2]
          have hacc_min : pyLt acc (pyMin acc ys) = false :=
            ih acc acc (List.mem_cons_self _ _)
          exact pyLe_trans hacc_min hya2
        · exact ih acc x (List.mem_cons_of_mem _ h2)

theorem pyMin_mem (l : List Str) (acc : Str) : pyMin acc l ∈ acc :: l := by
  induction l generalizing acc with
  | nil => simp [pyMin]
  | cons y ys ih =>
    rw [pyMin]
    by_cases hya : pyLt y acc
    · rw [if_pos hya]
      rcases List.mem_cons.mp (ih y) with h1 | h1
      · rw [h1]
        exact List.mem_cons_of_mem _ (List.mem_cons_self _ _)
      · exact List.mem_cons_of_mem _ (List.mem_cons_of_mem _ h1)
    · rw [if_neg hya]
      rcases List.mem_cons.mp (ih acc) with h1 | h1
      · rw [h1]
        exact List.mem_cons_self _ _
      · exact List.mem_cons_of_mem _ (List.mem_cons_of_mem _ h1)

theorem pyMax_le (l : List Str) (acc : Str) :
    ∀ x ∈ acc :: l, pyLt (pyMax acc l) x = false := by
  induction l generalizing acc with
  | nil =>
    intro x hx
    simp at hx
    rw [hx, pyMax, pyLt_irrefl]
  | cons y ys ih =>
    intro x hx
    rw [pyMax]
    by_cases hay : pyLt acc y
    · rw [if_pos hay]
      rcases List.mem_cons.mp hx with h1 | h1
      · rw [h1]
        have hmax_y : pyLt (pyMax y ys) y = false := ih y y (List.mem_cons_self _ _)
        have hyx : pyLt y acc = false := pyLt_asymm hay
        exact pyLe_trans hyx hmax_y
      · rcases List.mem_cons.mp h1 with h2 | h2
        · rw [h2]
          exact ih y y (List.mem_cons_self _ _)
        · exact ih y x (List.mem_cons_of_mem _ h2)
    · rw [if_neg hay]
      have hay2 : pyLt acc y = false := Bool.eq_false_iff.mpr hay
      rcases List.mem_cons.mp hx with h1 | h1
      · rw [h1]
        exact ih acc acc (List.mem_cons_self _ _)
      · rcases List.mem_cons.mp h1 with h2 | h2
        · rw [h2]
          have hmax_acc : pyLt (pyMax acc ys) acc = false :=
            ih acc acc (List.mem_cons_self _ _)
          exact pyLe_trans hay2 hmax_acc
        · exact ih acc x (List.mem_cons_of_mem _ h2)

theorem pyMax_mem (l : List Str) (acc : Str) : pyMax acc l ∈ acc :: l := by
  induction l generalizing acc with
  | nil => simp [pyMax]
  | cons y ys ih =>
    rw [pyMax]
    by_cases hay : pyLt acc y
    · rw [if_pos hay]
      rcases List.mem_cons.mp (ih y) with h1 | h1
      · rw [h1]
        exact List.mem_cons_of_mem _ (List.mem_cons_self _ _)
      · exact List.mem_cons_of_mem _ (List.mem_cons_of_mem _ h1)
    · rw [if_neg hay]
      rcases List.mem_cons.mp (ih acc) with h1 | h1
      · rw [h1]
        exact List.mem_cons_self _ _
      · exact List.mem_cons_of_mem _ (List.mem_cons_of_mem _ h1)

/-- A common prefix of two strings is a prefix of anything lexicographically
between them. -/
theorem sandwiched_of_common (p : Str) :
    ∀ a b c : Str, pyLt b a = false → pyLt c b = false →
      p <+: a → p <+: c → p <+: b := by
  induction p with
  | nil => exact fun a b c _ _ _ _ => List.nil_prefix
  | cons x p2 ih =>
    intro a b c h1 h2 hp1 hp2
    cases a with
    | nil => simp at hp1
    | cons ah a2 =>
      cases c with
      | nil => simp at hp2
      | cons ch c2 =>
        obtain ⟨hxa, hpa⟩ := List.cons_prefix_cons.mp hp1
        obtain ⟨hxc, hpc⟩ := List.cons_prefix_cons.mp hp2
        cases b with
        | nil => simp [pyLt] at h1
        | cons bh b2 =>
          simp only [pyLt] at h1 h2
          subst hxa
          subst hxc
          by_cases hba : bh < x
          · rw [if_pos hba] at h1
            exact absurd h1 (by simp)
          · rw [if_neg hba] at h1
            by_cases hcb : x < bh
            · rw [if_pos hcb] at h2
              exact absurd h2 (by simp)
            · rw [if_neg hcb] at h2
              have hbe : bh = x := le_antisymm (not_lt.mp hcb) (not_lt.mp hba)
              subst hbe
              rw [if_neg (lt_irrefl _)] at h1 h2
              exact List.cons_prefix_cons.mpr ⟨rfl, ih a2 b2 c2 h1 h2 hpa hpc⟩

/-- The source loop, run on `s1 ≤ s2`: it cannot raise and it returns the
longest common prefix of `s1` and `s2`. -/
theorem lcpScan_le {s1 s2 : Str} (h : pyLt s2 s1 = false) :
    ∃ r, lcpScan s1 s2 = some r ∧ r <+: s1 ∧ r <+: s2 ∧
      ∀ p : Str, p <+: s1 → p <+: s2 → p <+: r := by
  induction s1 generalizing s2 with
  | nil =>
    refine ⟨[], rfl, List.nil_prefix, List.nil_prefix, ?_⟩
    intro p hp _
    simpa using hp
  | cons a t1 ih =>
    cases s2 with
    | nil => simp [pyLt] at h
    | cons b t2 =>
      by_cases hab : a = b
      · subst hab
        have h2 : pyLt t2 t1 = false := by
          simpa [pyLt, lt_irrefl] using h
        obtain ⟨r, hr, hr1, hr2, hmax⟩ := ih h2
        refine ⟨a :: r, ?_, ?_, ?_, ?_⟩
        · simp [lcpScan, hr]
        · exact List.cons_prefix_cons.mpr ⟨rfl, hr1⟩
        · exact List.cons_prefix_cons.mpr ⟨rfl, hr2⟩
        · intro p hp1 hp2
          cases p with
          | nil => exact List.nil_prefix
          | cons x p2 =>
            obtain ⟨hx1, hp1b⟩ := List.cons_prefix_cons.mp hp1
            obtain ⟨_, hp2b⟩ := List.cons_prefix_cons.mp hp2
            exact List.cons_prefix_cons.mpr ⟨hx1, hmax p2 hp1b hp2b⟩
      · refine ⟨[], by simp [lcpScan, hab], List.nil_prefix, List.nil_prefix, ?_⟩
        intro p hp1 hp2
        cases p with
        | nil => exact List.prefix_refl _
        | cons x p2 =>
          obtain ⟨hx1, _⟩ := List.cons_prefix_cons.mp hp1
          obtain ⟨hx2, _⟩ := List.cons_prefix_cons.mp hp2
          exact absurd (hx1 ▸ hx2) hab

/-- C8: `longest_common_prefix` returns `''` for the empty list; for a
non-empty list it does not raise and returns a string that is a prefix of
every element and than which no common prefix is longer. -/
theorem longest_common_prefix_correct :
    longest_common_prefix [] = some [] ∧
    ∀ m : List Str, m ≠ [] →
      ∃ r, longest_common_prefix m = some r ∧
        (∀ x ∈ m, r <+: x) ∧
        ∀ p : Str, (∀ x ∈ m, p <+: x) → p.length ≤ r.length := by
  refine ⟨rfl, ?_⟩
  intro m hm
  cases m with
  | nil => exact absurd rfl hm
  | cons x xs =>
    have hmin_le : ∀ z ∈ x :: xs, pyLt z (pyMin x xs) = false := pyMin_le xs x
    have hmax_ge : ∀ z ∈ x :: xs, pyLt (pyMax x xs) z = false := pyMax_le xs x
    have hs2mem : pyMax x xs ∈ x :: xs := pyMax_mem xs x
    have h12 : pyLt (pyMax x xs) (pyMin x xs) = false := hmin_le _ hs2mem
    obtain ⟨r, hscan, hr1, hr2, hmax⟩ := lcpScan_le h12
    refine ⟨r, hscan, ?_, ?_⟩
    · intro z hz
      exact sandwiched_of_common r (pyMin x xs) z (pyMax x xs)
        (hmin_le z hz) (hmax_ge z hz) hr1 hr2
    · intro p hp
      have hp1 : p <+: pyMin x xs := hp _ (pyMin_mem xs x)
      have hp2 : p <+: pyMax x xs := hp _ hs2mem
      exact (hmax p hp1 hp2).length_le

/-- Witness for C8 at a concrete non-empty list. -/
theorem longest_common_prefix_correct_witness :
    (["ab".data, "ac".data] : List Str) ≠ [] ∧
    ∃ r, longest_common_prefix ["ab".data, "ac".data] = some r ∧
      (∀ x ∈ (["ab".data, "ac".data] : List Str), r <+: x) ∧
      ∀ p : Str, (∀ x ∈ (["ab".data, "ac".data] : List Str), p <+: x) →
        p.length ≤ r.length :=
  ⟨by decide, longest_common_prefix_correct.2 ["ab".data, "ac".data] (by decide)⟩

/-! ### Claim C10: at most one plugin handler per logger -/

theorem lookupA_append_some {α : Type} {m1 : List (Str × α)} (m2 : List (Str × α))
    {k : Str} {v : α} (h : lookupA m1 k = some v) :
    lookupA (m1 ++ m2) k = some v := by
  induction m1 with
  | nil => simp [lookupA] at h
  | cons p rest ih =>
    obtain ⟨k2, v2⟩ := p
    by_cases h2 : k2 = k
    · subst h2
      simp [lookupA] at h ⊢
      exact h
    · simp [lookupA, h2] at h ⊢
      exact ih h

theorem lookupA_append_none {α : Type} {m1 : List (Str × α)} (m2 : List (Str × α))
    {k : Str} (h : lookupA m1 k = none) :
    lookupA (m1 ++ m2) k = lookupA m2 k := by
  induction m1 with
  | nil => simp
  | cons p rest ih =>
    obtain ⟨k2, v2⟩ := p
    by_cases h2 : k2 = k
    · simp [lookupA, h2] at h
    · simp [lookupA, h2] at h ⊢
      exact ih h

theorem mem_insertA_nodup {α : Type} {m : List (Str × α)} {k : Str} {v : α}
    {q : Str × α} (hnd : (keysA m).Nodup) (h : q ∈ insertA m k v) :
    q = (k, v) ∨ (q ∈ m ∧ q.1 ≠ k) := by
  induction m with
  | nil =>
    simp [insertA] at h
    exact Or.inl h
  | cons p rest ih =>
    obtain ⟨k2, v2⟩ := p
    rw [keysA_cons, List.nodup_cons] at hnd
    by_cases h2 : k2 = k
    · subst h2
      simp only [insertA, if_pos rfl] at h
      rcases List.mem_cons.mp h with h3 | h3
      · exact Or.inl h3
      · refine Or.inr ⟨List.mem_cons_of_mem _ h3, ?_⟩
        have hq1 : q.1 ∈ keysA rest := mem_keysA_of_mem h3
        intro he
        exact hnd.1 (he ▸ hq1)
    · simp only [insertA, if_neg h2] at h
      rcases List.mem_cons.mp h with h3 | h3
      · subst h3
        exact Or.inr ⟨List.mem_cons_self _ _, h2⟩
      · rcases ih hnd.2 h3 with h4 | h4
        · exact Or.inl h4
        · exact Or.inr ⟨List.mem_cons_of_mem _ h4.1, h4.2⟩

theorem isRealAt_insertA_ne {reg : List (Str × Entry)} {k k2 : Str} (v : Entry)
    (h : k2 ≠ k) : isRealAt (insertA reg k v) k2 = isRealAt reg k2 := by
  simp [isRealAt, lookupA_insertA_ne reg k k2 v h]

theorem plugAt_insertA_ne {N : Nat} {reg : List (Str × Entry)} {k k2 : Str}
    (v : Entry) (h : k2 ≠ k) : plugAt N (insertA reg k v) k2 = plugAt N reg k2 := by
  simp [plugAt, lookupA_insertA_ne reg k k2 v h]

theorem filter_erase_of_pos {l : List Nat} {a : Nat} {p : Nat → Bool}
    (hp : p a = true) : (l.erase a).filter p = (l.filter p).erase a := by
  induction l with
  | nil => simp
  | cons x xs ih =>
    by_cases hx : x = a
    · subst hx
      rw [List.erase_cons_head, List.filter_cons, hp, if_pos rfl,
        List.erase_cons_head]
    · rw [List.erase_cons_tail (by simpa using hx), List.filter_cons]
      by_cases hpx : p x
      · rw [if_pos hpx, List.filter_cons, if_pos hpx,
          List.erase_cons_tail (by simpa using hx), ih]
      · rw [if_neg hpx, List.filter_cons, if_neg hpx, ih]

theorem Inv_congr {N : Nat} {st st2 : State} (h : Inv N st)
    (h1 : st2.registry = st.registry) (h2 : st2.handlers = st.handlers)
    (h3 : st2.nextId = st.nextId) : Inv N st2 := by
  unfold Inv at h ⊢
  rw [h1, h2, h3]
  exact h

theorem inv_do_watch {N : Nat} {st : State} (hinv : Inv N st) (name : Str) :
    Inv N (do_watch st name) := by
  obtain ⟨hN, hregnd, hkeynd, hidnd, hwc, hun⟩ := hinv
  by_cases hws : (lookupA st.handlers name).isSome
  · rw [do_watch, if_pos hws]
    exact Inv_congr ⟨hN, hregnd, hkeynd, hidnd, hwc, hun⟩
      (writeline_registry _ _) (writeline_handlers _ _) (writeline_nextId _ _)
  · have hnone : lookupA st.handlers name = none :=
      Option.not_isSome_iff_eq_none.mp hws
    have hnot : name ∉ keysA st.handlers := (lookupA_eq_none_iff _ _).mp hnone
    rcases hreg : lookupA st.registry name with _ | e
    · have he : do_watch st name = writeline st (msgNoLoggerNamed ++ name) := by
        rw [do_watch, if_neg (by simp [hnone])]
        rw [hreg]
      rw [he]
      exact Inv_congr ⟨hN, hregnd, hkeynd, hidnd, hwc, hun⟩
        (writeline_registry _ _) (writeline_handlers _ _) (writeline_nextId _ _)
    · cases e with
      | placeholder =>
        have he : do_watch st name = writeline st msgNotTopLevel := by
          rw [do_watch, if_neg (by simp [hnone])]
          rw [hreg]
        rw [he]
        exact Inv_congr ⟨hN, hregnd, hkeynd, hidnd, hwc, hun⟩
          (writeline_registry _ _) (writeline_handlers _ _) (writeline_nextId _ _)
      | real lg =>
        have hmem : (name, Entry.real lg) ∈ st.registry := lookupA_mem hreg
        have hplug0 : lg.handlers.filter (fun h => N ≤ h) = [] := by
          have := hun _ hmem hnone
          simpa [entryPlug] using this
        have hsmall : ∀ h ∈ lg.handlers, h < N := by simpa using hplug0
        have hfresh : lg.handlers.contains st.nextId = false := by
          rw [Bool.eq_false_iff]
          intro hc
          have := hsmall st.nextId (List.elem_iff.mp hc)
          omega
        rw [do_watch_success st name lg hreg hnone, addHandlerL_fresh hfresh]
        unfold Inv
        dsimp only
        refine ⟨by omega, ?_, ?_, ?_, ?_, ?_⟩
        · rw [keysA_insertA_of_some _ hreg]
          exact hregnd
        · show (keysA (st.handlers ++ [(name, st.nextId)])).Nodup
          rw [show keysA (st.handlers ++ [(name, st.nextId)])
            = keysA st.handlers ++ [name] from by simp [keysA]]
          simp [List.nodup_append, hkeynd, hnot]
        · show ((st.handlers ++ [(name, st.nextId)]).map (·.2)).Nodup
          rw [List.map_append]
          have hfr2 : st.nextId ∉ st.handlers.map (·.2) := by
            intro hm
            obtain ⟨p, hp, hpe⟩ := List.mem_map.mp hm
            exact absurd (hpe ▸ (hwc p hp).2.1) (lt_irrefl _)
          simp [List.nodup_append, hidnd, hfr2]
        · intro p hp
          rcases List.mem_append.mp hp with h1 | h1
          · have hne : p.1 ≠ name := by
              intro he
              exact hnot (he ▸ mem_keysA_of_mem h1)
            obtain ⟨ha, hb, hc, hd⟩ := hwc p h1
            exact ⟨ha, by omega, by rw [isRealAt_insertA_ne _ hne]; exact hc,
              by rw [plugAt_insertA_ne _ hne]; exact hd⟩
          · simp at h1
            rw [h1]
            refine ⟨hN, by omega, ?_, ?_⟩
            · simp [isRealAt, lookupA_insertA_self]
            · simp only [plugAt, lookupA_insertA_self, entryPlug]
              rw [List.filter_append, hplug0]
              simp [hN]
        · intro q hq hlk
          have hlk2 : lookupA (st.handlers ++ [(name, st.nextId)]) q.1 = none := hlk
          by_cases hqn : q.1 = name
          · rw [hqn, lookupA_append_none _ hnone] at hlk2
            simp [lookupA] at hlk2
          · rcases mem_insertA_nodup hregnd hq with h1 | h1
            · exact absurd (congrArg Prod.fst h1) hqn
            · have hold : lookupA st.handlers q.1 = none := by
                rcases hl2 : lookupA st.handlers q.1 with _ | v2
                · rfl
                · rw [lookupA_append_some _ hl2] at hlk2
                  simp at hlk2
              exact hun q h1.1 hold

theorem lookupA_middle_ne {α : Type} {m1 m2 : List (Str × α)} {k name : Str}
    (v : α) (hne : k ≠ name) :
    lookupA (m1 ++ m2) k = lookupA (m1 ++ (name, v) :: m2) k := by
  have hne2 : ¬ name = k := fun he2 => hne (Eq.symm he2)
  rcases hl : lookupA m1 k with _ | v2
  · rw [lookupA_append_none _ hl, lookupA_append_none _ hl]
    simp [lookupA, hne2]
  · rw [lookupA_append_some _ hl, lookupA_append_some _ hl]

theorem inv_do_unwatch {N : Nat} {st : State} (hinv : Inv N st) (name : Str) :
    Inv N (do_unwatch st name) := by
  obtain ⟨hN, hregnd, hkeynd, hidnd, hwc, hun⟩ := hinv
  rcases hpop : popA st.handlers name with _ | pr
  · have he : do_unwatch st name = writeline st msgNotWatched := by
      simp only [do_unwatch, hpop]
    rw [he]
    exact Inv_congr ⟨hN, hregnd, hkeynd, hidnd, hwc, hun⟩
      (writeline_registry _ _) (writeline_handlers _ _) (writeline_nextId _ _)
  · obtain ⟨h, rest⟩ := pr
    obtain ⟨m1, m2, hm, hrest, hm1⟩ := popA_split hpop
    have hmemh : (name, h) ∈ st.handlers := by rw [hm]; simp
    obtain ⟨hNh, hlth, hrealh, hplugh⟩ := hwc (name, h) hmemh
    rcases hreg : lookupA st.registry name with _ | e
    · simp [isRealAt, hreg] at hrealh
    · cases e with
      | placeholder => simp [isRealAt, hreg] at hrealh
      | real lg =>
        have he : do_unwatch st name = { st with
            handlers := rest,
            registry := insertA st.registry name
              (Entry.real { lg with handlers := lg.handlers.erase h }) } := by
          simp only [do_unwatch, hpop, hreg]
        rw [he]
        have hsub : List.Sublist rest st.handlers := by
          rw [hrest, hm]
          exact (List.sublist_cons_self _ _).append_left m1
        have hkeysmid : keysA st.handlers = keysA m1 ++ name :: keysA m2 := by
          rw [hm]
          simp [keysA]
        have hname_rest : name ∉ keysA rest := by
          rw [hrest]
          have h1 : (keysA m1 ++ name :: keysA m2).Nodup := hkeysmid ▸ hkeynd
          have h2 := (List.nodup_cons.mp (List.nodup_middle.mp h1)).1
          simpa [keysA] using h2
        unfold Inv
        dsimp only
        refine ⟨hN, ?_, ?_, ?_, ?_, ?_⟩
        · rw [keysA_insertA_of_some _ hreg]
          exact hregnd
        · exact hkeynd.sublist (hsub.map _)
        · exact hidnd.sublist (hsub.map _)
        · intro p hp
          have hpmem : p ∈ st.handlers := hsub.subset hp
          have hpne : p.1 ≠ name := by
            intro he2
            exact hname_rest (he2 ▸ mem_keysA_of_mem hp)
          obtain ⟨ha, hb, hc, hd⟩ := hwc p hpmem
          exact ⟨ha, hb, by rw [isRealAt_insertA_ne _ hpne]; exact hc,
            by rw [plugAt_insertA_ne _ hpne]; exact hd⟩
        · intro q hq hlk
          by_cases hqn : q.1 = name
          · rcases mem_insertA_nodup hregnd hq with h1 | h1
            · rw [h1]
              dsimp only [entryPlug]
              have hplug : lg.handlers.filter (fun x => N ≤ x) = [h] := by
                simpa [plugAt, hreg, entryPlug] using hplugh
              rw [filter_erase_of_pos (by simpa using hNh), hplug,
                List.erase_cons_head]
            · exact absurd hqn h1.2
          · rcases mem_insertA_nodup hregnd hq with h1 | h1
            · rw [h1] at hqn
              simp at hqn
            · have hlk2 : lookupA st.handlers q.1 = none := by
                rw [hm, ← lookupA_middle_ne _ hqn, ← hrest]
                exact hlk
              exact hun q h1.1 hlk2

theorem inv_runWU {N : Nat} {st : State} (hinv : Inv N st)
    (cmds : List (Bool × Str)) : Inv N (runWU st cmds) := by
  induction cmds generalizing st with
  | nil => exact hinv
  | cons c cs ih =>
    rw [runWU, List.foldl_cons]
    by_cases hc : c.1
    · rw [if_pos hc]
      exact ih (inv_do_watch hinv c.2)
    · rw [if_neg hc]
      exact ih (inv_do_unwatch hinv c.2)

/-- C10: watching an already-watched name writes
`*** Logger already being watched` and changes nothing else, and along any
sequence of watch and unwatch commands from a state satisfying the plugin
invariant, the watched map keeps one handler per name and no registry
entry ever carries two plugin handlers. -/
theorem watch_at_most_one :
    (∀ (st : State) (name : Str), (lookupA st.handlers name).isSome = true →
      do_watch st name = writeline st msgAlreadyWatched) ∧
    (∀ (N : Nat) (st : State) (cmds : List (Bool × Str)), Inv N st →
      Inv N (runWU st cmds) ∧
      (keysA (runWU st cmds).handlers).Nodup ∧
      ∀ q ∈ (runWU st cmds).registry, (entryPlug N q.2).length ≤ 1) := by
  constructor
  · intro st name h
    rw [do_watch, if_pos h]
  · intro N st cmds hinv
    have hinv2 := inv_runWU hinv cmds
    have hinv3 := hinv2
    obtain ⟨_, hregnd2, hkeys2, _, hw2, hun2⟩ := hinv3
    refine ⟨hinv2, hkeys2, ?_⟩
    intro q hq
    rcases hl : lookupA (runWU st cmds).handlers q.1 with _ | hid
    · rw [hun2 q hq hl]
      simp
    · have hmem := lookupA_mem hl
      obtain ⟨_, _, _, hplug⟩ := hw2 (q.1, hid) hmem
      have hq2 : lookupA (runWU st cmds).registry q.1 = some q.2 :=
        mem_lookupA hregnd2 hq
      have hpe : entryPlug N q.2 = plugAt N (runWU st cmds).registry q.1 := by
        simp [plugAt, hq2]
      rw [hpe, hplug]
      simp

/-- Witness for C10 at a concrete state and command sequence. -/
theorem watch_at_most_one_witness :
    Inv 0 sampleState ∧
    (Inv 0 (runWU sampleState
        [(true, "alpha".data), (true, "alpha".data), (false, "alpha".data)]) ∧
      (keysA (runWU sampleState
        [(true, "alpha".data), (true, "alpha".data), (false, "alpha".data)]).handlers).Nodup ∧
      ∀ q ∈ (runWU sampleState
        [(true, "alpha".data), (true, "alpha".data), (false, "alpha".data)]).registry,
        (entryPlug 0 q.2).length ≤ 1) :=
  ⟨by unfold Inv; decide,
    watch_at_most_one.2 0 sampleState
      [(true, "alpha".data), (true, "alpha".data), (false, "alpha".data)]
      (by unfold Inv; decide)⟩

/-! ### Claim C1: the `tree` command on a missing name -/

/-- C1 evidence: on a name that is not a path of the registry,
`do_list_loggers` reports `No such logger: ` and terminates with the
watched map and the registry untouched, but `do_tree` aborts: in its
`except KeyError` handler the source evaluates `prefix.join('.')` and
`prefix` is not a name in `do_tree`'s scope (it is only a parameter of the
inner `tree_level`), so CPython raises an uncaught `NameError`
(modelled as `none`) instead of writing the message. -/
theorem tree_missing_name_crashes :
    do_tree sampleState "beta".data = none ∧
    do_list_loggers sampleState "beta".data
      = writeline sampleState (msgNoSuchLogger ++ "beta".data) ∧
    (do_list_loggers sampleState "beta".data).handlers = sampleState.handlers ∧
    (do_list_loggers sampleState "beta".data).registry = sampleState.registry := by
  refine ⟨?_, ?_, ?_, ?_⟩ <;> decide

end ConsoleLogging
